import Mathlib

/-!
Verification of the document-generation service: the dependency-wave
scheduler, the version-lineage manager, the streaming event layer, the
broadcast hub, and the diff/similarity service.  Each Python function of the
repository is embedded as an executable Lean definition (machine floats are
modelled as exact rationals, Python dicts as association lists iterated in
insertion order, and fallible code returns Except); the theorems at the end
of the file settle the specified properties against these definitions.
-/

set_option maxHeartbeats 1000000

/-! ## Association-list helpers (Python `dict` as a list of key/value pairs) -/

/-- Lookup in an association list: the value of the first pair whose key
matches, mirroring a Python dict (whose keys are unique). -/
def keyLookup {κ β : Type} [DecidableEq κ] (m : List (κ × β)) (k : κ) : Option β :=
  (m.find? (fun p => p.1 = k)).map (fun p => p.2)

/-- `dict.get(k, dflt)`. -/
def keyLookupD {κ β : Type} [DecidableEq κ] (m : List (κ × β)) (k : κ) (dflt : β) : β :=
  (keyLookup m k).getD dflt

/-- Python `{**a, **b}`: keys of `a` in order with values overridden by `b`,
then keys of `b` not in `a`, in order. -/
def dictMerge {κ β : Type} [DecidableEq κ] (a b : List (κ × β)) : List (κ × β) :=
  (a.map (fun p => (p.1, keyLookupD b p.1 p.2))) ++ b.filter (fun q => (keyLookup a q.1).isNone)

namespace Sched

/-! ## `doc_generator.py`: `DocumentTemplate` and `_build_dependency_graph` -/

/-- `DocumentTemplate.__init__` (doc_generator.py).  `dependencies or []`
defaults to the empty list. -/
structure DocumentTemplate where
  doc_type : String
  title : String
  prompt_template : String
  dependencies : List String
  estimated_tokens : Nat
deriving DecidableEq, Repr

/-- One iteration's `current_wave` (doc_generator.py, `_build_dependency_graph`):
the templates of `remaining` whose dependencies are all already generated, or,
when that set is empty (cycle or missing dependency), all of `remaining`. -/
def nextWave (remaining : List DocumentTemplate) (generated : List String) :
    List DocumentTemplate :=
  let cw := remaining.filter (fun t => t.dependencies.all (fun d => generated.contains d))
  if cw = [] then remaining else cw

/-- The `while remaining` loop of `_build_dependency_graph`.  Each iteration
removes the (nonempty) wave from `remaining`, so `fuel := remaining.length`
always suffices; the `fuel = 0` branch is unreachable from `buildDependencyGraph`
(see `buildWavesAux_fuel_irrelevant`). -/
def buildWavesAux (fuel : Nat) (remaining : List DocumentTemplate)
    (generated : List String) : List (List DocumentTemplate) :=
  match fuel with
  | 0 => []
  | fuel + 1 =>
    if remaining = [] then []
    else
      let cw := nextWave remaining generated
      cw :: buildWavesAux fuel (remaining.diff cw) (generated ++ cw.map (fun t => t.doc_type))

/-- `SwarmCoordinator._build_dependency_graph` (doc_generator.py lines 685-711). -/
def buildDependencyGraph (templates : List DocumentTemplate) : List (List DocumentTemplate) :=
  buildWavesAux templates.length templates []

/-- The coverage half of the scheduler's contract: the waves, concatenated,
are a permutation of the input (every requested template in exactly one wave). -/
def coversExactly (waves : List (List DocumentTemplate))
    (templates : List DocumentTemplate) : Prop :=
  waves.flatten.Perm templates

/-- The ordering half of the claimed contract: every template in wave `i > 0`
has each dependency provided by the doc_type of a template of an earlier wave. -/
def wavesOrdered (waves : List (List DocumentTemplate)) : Prop :=
  ∀ i < waves.length, 0 < i → ∀ t ∈ waves.getD i [], ∀ d ∈ t.dependencies,
    ∃ s ∈ (waves.take i).flatten, s.doc_type = d

/-- A topological ranking: each template's dependencies rank strictly below its
own doc_type.  Such a ranking exists exactly when the finite dependency
relation has no cycle. -/
def rankAcyclic (rank : String → Nat) (templates : List DocumentTemplate) : Prop :=
  ∀ t ∈ templates, ∀ d ∈ t.dependencies, rank d < rank t.doc_type

/-- Dependency-closedness: every dependency names the doc_type of some member
of the set. -/
def depClosed (templates : List DocumentTemplate) : Prop :=
  ∀ t ∈ templates, ∀ d ∈ t.dependencies, ∃ s ∈ templates, s.doc_type = d

end Sched

namespace VersionMgr

/-! ## `version_manager.py`: `DocumentNode` store and `create_new_version`

The persistence session is modelled as a list of document rows plus a fresh-id
counter (uuid4 modelled as sequential allocation).  The graph-node / edge rows
created alongside each version are purely visual and no claim mentions them,
so the embedding carries the document rows only. -/

/-- The versioning-relevant fields of `DocumentNode` (graph_node.py lines
131-165), with the model defaults `version = 1`, `parent_version_id = None`,
`is_latest = True`. -/
structure DocumentNode where
  id : Nat
  title : String
  doc_type : String
  content : String
  version : Nat
  parent_version_id : Option Nat
  is_latest : Bool
  metadata : List (String × String)
deriving DecidableEq, Repr

structure Store where
  docs : List DocumentNode
  nextId : Nat
deriving DecidableEq, Repr

/-- `session.get(DocumentNode, document_id)`. -/
def findDoc (st : Store) (documentId : Nat) : Option DocumentNode :=
  st.docs.find? (fun d => d.id = documentId)

/-- The loop body of `VersionManager._get_root_id`: follow `parent_version_id`
until it is absent or dangling.  The Python loop is unbounded; on stores whose
parent ids strictly decrease (as allocation produces) it visits strictly
decreasing ids, so `fuel := st.docs.length + 1` covers every chain. -/
def getRootIdAux (st : Store) : Nat → DocumentNode → Nat
  | 0, cur => cur.id
  | fuel + 1, cur =>
    match cur.parent_version_id with
    | none => cur.id
    | some pid =>
      match findDoc st pid with
      | none => cur.id
      | some p => getRootIdAux st fuel p

def getRootId (st : Store) (doc : DocumentNode) : Nat :=
  getRootIdAux st (st.docs.length + 1) doc

/-- `VersionManager.create_new_version` (version_manager.py lines 52-137),
document-store effects.  The source fetches `document_id`'s own row (never the
chain's latest), flips that row's `is_latest`, computes `root_id` without using
it, and appends the new row with `version = current.version + 1`,
`parent_version_id = current.id`.  A missing id raises
`ValueError(f"Document {document_id} not found")`, modelled as `.error`. -/
def create_new_version (st : Store) (documentId : Nat) (newContent : String)
    (metadata : List (String × String)) : Except String (Store × DocumentNode) :=
  match findDoc st documentId with
  | none => .error ("Document " ++ toString documentId ++ " not found")
  | some currentDoc =>
    let docs1 := st.docs.map (fun d => if d.id = documentId then { d with is_latest := false } else d)
    let rootId := getRootId { docs := docs1, nextId := st.nextId } currentDoc
    let newDoc : DocumentNode :=
      { id := st.nextId
        title := currentDoc.title
        doc_type := currentDoc.doc_type
        content := newContent
        version := currentDoc.version + 1
        parent_version_id := some currentDoc.id
        is_latest := true
        metadata := dictMerge currentDoc.metadata metadata }
    let _ := rootId  -- `root_id` is computed but never read in the source
    .ok ({ docs := docs1 ++ [newDoc], nextId := st.nextId + 1 }, newDoc)

/-- Run `create_new_version` for its store effect (the broadcast is fire-and-forget). -/
def applyCreate (st : Store) (documentId : Nat) (c : String) : Store :=
  match create_new_version st documentId c [] with
  | .ok (st', _) => st'
  | .error _ => st

/-- A fresh single-version chain: one root document, version 1, latest. -/
def initStore (c0 : String) : Store :=
  { docs := [{ id := 0, title := "t", doc_type := "PRD", content := c0,
               version := 1, parent_version_id := none, is_latest := true, metadata := [] }]
    nextId := 1 }

/-- The chain member currently flagged latest (first in row order). -/
def latestDoc (st : Store) : Option DocumentNode :=
  st.docs.find? (fun d => d.is_latest)

/-- A caller that edits the chain's current latest version repeatedly: each
edit passes the current latest member's id to `create_new_version`. -/
def applyEdits (st : Store) : List String → Store
  | [] => st
  | c :: cs =>
    applyEdits
      (match latestDoc st with
       | some d => applyCreate st d.id c
       | none => st) cs

/-- The claimed chain invariant: exactly one member flagged latest, and the
version numbers are the contiguous ascending run 1, 2, …, n. -/
def ChainInv (st : Store) : Prop :=
  (st.docs.filter (fun d => d.is_latest)).length = 1 ∧
  st.docs.map (fun d => d.version) = List.range' 1 st.docs.length

/-- Ids strictly decrease along parent links, as sequential allocation
produces; under this discipline the `_get_root_id` walk terminates. -/
def ParentsDecreasing (st : Store) : Prop :=
  ∀ d ∈ st.docs, ∀ pid, d.parent_version_id = some pid → pid < d.id

/-- The two-member chain root(v1, superseded) <- v2(latest): the store reached
from `initStore` after one edit of the root. -/
def twoChainStore : Store := applyCreate (initStore "r") 0 "v2"

end VersionMgr

namespace Gen

/-! ## `doc_generator.py`: the chunk loop of `_generate_single_document` -/

/-- The `async for chunk in …generate_content_stream(…)` loop (doc_generator.py
lines 759-782): append each chunk to `full_content` and broadcast a
content-chunk event whose progress is `len(full_content) / template.estimated_tokens`
— the quotient is NOT clamped in the source.  Returned: the progress value of
each broadcast event, in order, as exact rationals. -/
def chunkProgressAux (estimatedTokens : Nat) : List String → String → List ℚ
  | [], _ => []
  | ch :: rest, fullContent =>
    let fullContent' := fullContent ++ ch
    ((fullContent'.length : ℚ) / (estimatedTokens : ℚ)) :: chunkProgressAux estimatedTokens rest fullContent'

def contentChunkProgress (chunks : List String) (estimatedTokens : Nat) : List ℚ :=
  chunkProgressAux estimatedTokens chunks ""

end Gen

namespace Streaming

/-! ## `streaming.py`: stream events, the SSE generator and the broadcast hub -/

/-- A JSON-ish value as the event `data` dicts use them: strings, numbers
(floats modelled as exact rationals) and one level of string-valued dict. -/
inductive DVal where
  | str : String → DVal
  | num : ℚ → DVal
  | dict : List (String × String) → DVal
deriving DecidableEq, Repr

/-- `StreamEvent` (streaming.py lines 108-126); the wall-clock timestamp is
not modelled. -/
structure StreamEvent where
  event_type : String
  data : List (String × DVal)
deriving DecidableEq, Repr

/-- `DocumentStreamEvent.__init__` (streaming.py lines 129-151).  Python
truthiness: `if content_chunk:` skips both `None` and the empty string;
`if metadata:` skips both `None` and the empty dict. -/
def DocumentStreamEvent (documentId : String) (eventType : String)
    (contentChunk : Option String) (progress : ℚ)
    (metadata : Option (List (String × String))) : StreamEvent :=
  { event_type := eventType
    data :=
      [("document_id", DVal.str documentId), ("progress", DVal.num progress)]
      ++ (match contentChunk with
          | some c => if c = "" then [] else [("content_chunk", DVal.str c)]
          | none => [])
      ++ (match metadata with
          | some m => if m = [] then [] else [("metadata", DVal.dict m)]
          | none => []) }

/-- The body of `document_stream_generator` (streaming.py lines 188-233) after
the start event.  The external `content_generator` is modelled as the chunks it
yields plus an optional exception message raised after them (`none` = normal
exhaustion); the `except` clause converts the exception into one error event
and ends the stream. -/
def docStreamLoop (documentId : String) (totalChars : Nat) :
    List String → Option String → List StreamEvent
  | [], none => [DocumentStreamEvent documentId "complete" none 1 none]
  | [], some e => [DocumentStreamEvent documentId "error" none 0 (some [("error", e)])]
  | ch :: rest, err =>
    let total := totalChars + ch.length
    DocumentStreamEvent documentId "content_chunk" (some ch) (min ((total : ℚ) / 10000) 1) none
      :: docStreamLoop documentId total rest err

/-- `document_stream_generator` (streaming.py lines 188-233): the full event
sequence it yields (each event is serialized by `to_sse` on the wire). -/
def document_stream_generator (documentId : String) (chunks : List String)
    (err : Option String) : List StreamEvent :=
  DocumentStreamEvent documentId "start" none 0 none :: docStreamLoop documentId 0 chunks err

/-- A live subscriber of the hub; `fails` models `send_json` raising for this
subscriber during the broadcast under consideration. -/
structure Subscriber where
  sid : Nat
  fails : Bool
deriving DecidableEq, Repr

/-- `self.document_connections` (or `project_connections`): scope key to the
set of subscribers, the set in its iteration order. -/
def ConnState := List (String × List Subscriber)

/-- The send loop of `broadcast_to_document` (streaming.py lines 76-88):
deliver to each subscriber in turn; one that raises is recorded in
`disconnected` and delivery continues with the rest.  Returns
(delivered, disconnected), each in iteration order. -/
def sendLoop (bucket : List Subscriber) : List Subscriber × List Subscriber :=
  bucket.foldl
    (fun acc s => if s.fails then (acc.1, acc.2 ++ [s]) else (acc.1 ++ [s], acc.2))
    ([], [])

/-- The cleanup loop: `for connection in disconnected: bucket.discard(connection)`. -/
def discardAll (bucket disconnected : List Subscriber) : List Subscriber :=
  disconnected.foldl (fun b s => b.erase s) bucket

/-- Replace the bucket stored under `key` (in-place set mutation of the dict's
value). -/
def updateBucket (conns : ConnState) (key : String) (newBucket : List Subscriber) : ConnState :=
  conns.map (fun p => if p.1 = key then (p.1, newBucket) else p)

/-- `ConnectionManager.broadcast_to_document` (streaming.py lines 76-88), and
identically `broadcast_to_project` (lines 62-75): a missing scope key is a
no-op; otherwise send to every subscriber of the bucket, collect the ones whose
send raised, and discard exactly those from the bucket afterwards.  Returns the
new state plus the subscribers that received the message. -/
def broadcast_to_document (conns : ConnState) (documentId : String) :
    ConnState × List Subscriber :=
  match keyLookup conns documentId with
  | none => (conns, [])
  | some bucket =>
    let sent := sendLoop bucket
    (updateBucket conns documentId (discardAll bucket sent.2), sent.1)

end Streaming

namespace Difflib

/-! ## `difflib` as called by `VersionDiffService` (version_manager.py 337-374)

`compute_diff` and `compute_similarity` delegate to the standard library's
`SequenceMatcher(None, a, b)` (so `isjunk` is `None`, `autojunk` is the default
`True`).  The matcher is embedded generically over the element type: character
sequences for `compute_similarity`, line sequences for `unified_diff`.  Python
dicts appear as association lists in insertion order; `bjunk` is empty because
`isjunk` is `None`, so `isbjunk` is the constant-false function at every call. -/

/-- `b2j.setdefault(elt, []).append(i)`: append `i` to the index list of
`elt`, creating the entry at the end of the dict when absent. -/
def b2jInsert {α : Type} [DecidableEq α] (m : List (α × List Nat)) (c : α) (i : Nat) :
    List (α × List Nat) :=
  match m with
  | [] => [(c, [i])]
  | (k, v) :: rest => if k = c then (k, v ++ [i]) :: rest else (k, v) :: b2jInsert rest c i

/-- The first loop of `SequenceMatcher.__chain_b`: for each position of `b`,
record it under its element; every index list is ascending. -/
def b2jRaw {α : Type} [DecidableEq α] (b : List α) : List (α × List Nat) :=
  b.enum.foldl (fun m p => b2jInsert m p.2 p.1) []

/-- The autojunk popularity threshold `ntest = n // 100 + 1`. -/
def ntest (n : Nat) : Nat := n / 100 + 1

/-- `__chain_b` with `isjunk = None`, `autojunk = True`: when `len(b) >= 200`,
elements occurring more than `ntest` times are popular and their entries are
deleted from `b2j`. -/
def chainB {α : Type} [DecidableEq α] (b : List α) : List (α × List Nat) :=
  if 200 ≤ b.length then (b2jRaw b).filter (fun p => p.2.length ≤ ntest b.length)
  else b2jRaw b

/-- `j2len.get(j, 0)` on the previous row's dict. -/
def lookupNat (m : List (Nat × Nat)) (j : Nat) : Nat := keyLookupD m j 0

/-- The inner `for j in b2j.get(a[i], nothing)` loop of `find_longest_match`:
skip `j < blo`, break at `j >= bhi` (index lists are ascending), record
`newj2len[j] = k = j2len.get(j-1, 0) + 1` and take the strictly better match.
Python's `j-1` is `-1` when `j = 0` and is then never a key, hence the guard;
`i-k+1`/`j-k+1` are written `(i+1)-k`/`(j+1)-k` (`k ≤ min i j + 1` holds on
every reachable row value, so the ℕ subtraction agrees with Python's). -/
def flmInner (blo bhi i : Nat) (prev : List (Nat × Nat)) :
    List Nat → List (Nat × Nat) → Nat × Nat × Nat → List (Nat × Nat) × (Nat × Nat × Nat)
  | [], row, best => (row, best)
  | j :: js, row, best =>
    if j < blo then flmInner blo bhi i prev js row best
    else if bhi ≤ j then (row, best)
    else
      let k := (if j = 0 then 0 else lookupNat prev (j - 1)) + 1
      let best' := if best.2.2 < k then (i + 1 - k, j + 1 - k, k) else best
      flmInner blo bhi i prev js (row ++ [(j, k)]) best'

/-- The outer `for i in range(alo, ahi)` loop of `find_longest_match`,
threading the row dict (`j2len`) and the best match, from `j2len = {}` and
`best = (alo, blo, 0)`. -/
def flmRows {α : Type} [DecidableEq α] [Inhabited α] (a : List α)
    (b2j : List (α × List Nat)) (alo ahi blo bhi : Nat) :
    List (Nat × Nat) × (Nat × Nat × Nat) :=
  (List.range' alo (ahi - alo)).foldl
    (fun st i => flmInner blo bhi i st.1 (keyLookupD b2j (a.getD i default) []) [] st.2)
    ([], (alo, blo, 0))

/-- The downward extension `while` loops of `find_longest_match` (`junkSide =
false` is the `not isbjunk(...)` loop, `true` the junk one).  Each iteration
decrements `besti`, which stays above `alo ≥ 0`, so `fuel := besti + 1` at the
call site covers every run. -/
def extendLower {α : Type} [DecidableEq α] [Inhabited α] (a b : List α)
    (alo blo : Nat) (junkSide : Bool) (isbjunk : α → Bool) :
    Nat → Nat → Nat → Nat → Nat × Nat × Nat
  | 0, besti, bestj, bestsize => (besti, bestj, bestsize)
  | fuel + 1, besti, bestj, bestsize =>
    if alo < besti ∧ blo < bestj ∧ isbjunk (b.getD (bestj - 1) default) = junkSide ∧
        a.getD (besti - 1) default = b.getD (bestj - 1) default then
      extendLower a b alo blo junkSide isbjunk fuel (besti - 1) (bestj - 1) (bestsize + 1)
    else (besti, bestj, bestsize)

/-- The upward extension `while` loops.  Each iteration increments `bestsize`
while `besti + bestsize < ahi`, so `fuel := ahi + 1` covers every run. -/
def extendUpper {α : Type} [DecidableEq α] [Inhabited α] (a b : List α)
    (ahi bhi : Nat) (junkSide : Bool) (isbjunk : α → Bool) :
    Nat → Nat → Nat → Nat → Nat × Nat × Nat
  | 0, besti, bestj, bestsize => (besti, bestj, bestsize)
  | fuel + 1, besti, bestj, bestsize =>
    if besti + bestsize < ahi ∧ bestj + bestsize < bhi ∧
        isbjunk (b.getD (bestj + bestsize) default) = junkSide ∧
        a.getD (besti + bestsize) default = b.getD (bestj + bestsize) default then
      extendUpper a b ahi bhi junkSide isbjunk fuel besti bestj (bestsize + 1)
    else (besti, bestj, bestsize)

/-- `SequenceMatcher.find_longest_match(alo, ahi, blo, bhi)`: the row loop and
then the four extension loops in source order (non-junk lower, non-junk upper,
junk lower, junk upper). -/
def find_longest_match {α : Type} [DecidableEq α] [Inhabited α] (a b : List α)
    (b2j : List (α × List Nat)) (isbjunk : α → Bool) (alo ahi blo bhi : Nat) :
    Nat × Nat × Nat :=
  let m0 := (flmRows a b2j alo ahi blo bhi).2
  let m1 := extendLower a b alo blo false isbjunk (m0.1 + 1) m0.1 m0.2.1 m0.2.2
  let m2 := extendUpper a b ahi bhi false isbjunk (ahi + 1) m1.1 m1.2.1 m1.2.2
  let m3 := extendLower a b alo blo true isbjunk (m2.1 + 1) m2.1 m2.2.1 m2.2.2
  let m4 := extendUpper a b ahi bhi true isbjunk (ahi + 1) m3.1 m3.2.1 m3.2.2
  m4

/-- The `while queue` loop of `get_matching_blocks`.  `queue.pop()` takes the
most recently appended span, so the right sub-span (appended second) is on top
of the modelled stack.  Every iteration strictly decreases the measure
`sum of span sizes + stack length`, which starts at `len(a) + len(b) + 1`,
so that fuel covers every run. -/
def gmbLoop {α : Type} [DecidableEq α] [Inhabited α] (a b : List α)
    (b2j : List (α × List Nat)) (isbjunk : α → Bool) :
    Nat → List (Nat × Nat × Nat × Nat) → List (Nat × Nat × Nat) → List (Nat × Nat × Nat)
  | 0, _, acc => acc
  | _ + 1, [], acc => acc
  | fuel + 1, (alo, ahi, blo, bhi) :: stack, acc =>
    let m := find_longest_match a b b2j isbjunk alo ahi blo bhi
    if m.2.2 ≠ 0 then
      gmbLoop a b b2j isbjunk fuel
        ((if m.1 + m.2.2 < ahi ∧ m.2.1 + m.2.2 < bhi then [(m.1 + m.2.2, ahi, m.2.1 + m.2.2, bhi)] else [])
          ++ (if alo < m.1 ∧ blo < m.2.1 then [(alo, m.1, blo, m.2.1)] else [])
          ++ stack)
        (acc ++ [m])
    else gmbLoop a b b2j isbjunk fuel stack acc

/-- Lexicographic order on match triples, as `matching_blocks.sort()` compares
them.  The collected blocks have pairwise distinct first components (they do
not overlap in `a`), so any comparison sort agrees with Python's. -/
def blockLE (x y : Nat × Nat × Nat) : Bool :=
  decide (x.1 < y.1) ||
    (decide (x.1 = y.1) &&
      (decide (x.2.1 < y.2.1) || (decide (x.2.1 = y.2.1) && decide (x.2.2 ≤ y.2.2))))

def insertBlock (x : Nat × Nat × Nat) : List (Nat × Nat × Nat) → List (Nat × Nat × Nat)
  | [] => [x]
  | y :: ys => if blockLE x y then x :: y :: ys else y :: insertBlock x ys

def sortBlocks (l : List (Nat × Nat × Nat)) : List (Nat × Nat × Nat) :=
  l.foldr insertBlock []

/-- The adjacent-merge loop of `get_matching_blocks`, from `i1 = j1 = k1 = 0`. -/
def mergeGo : List (Nat × Nat × Nat) → Nat → Nat → Nat → List (Nat × Nat × Nat) →
    List (Nat × Nat × Nat)
  | [], i1, j1, k1, acc => if k1 ≠ 0 then acc ++ [(i1, j1, k1)] else acc
  | (i2, j2, k2) :: rest, i1, j1, k1, acc =>
    if i1 + k1 = i2 ∧ j1 + k1 = j2 then mergeGo rest i1 j1 (k1 + k2) acc
    else mergeGo rest i2 j2 k2 (if k1 ≠ 0 then acc ++ [(i1, j1, k1)] else acc)

/-- `SequenceMatcher.get_matching_blocks`: divide-and-conquer around longest
matches, sort, merge adjacent blocks, and append the `(la, lb, 0)` sentinel. -/
def get_matching_blocks {α : Type} [DecidableEq α] [Inhabited α] (a b : List α)
    (b2j : List (α × List Nat)) (isbjunk : α → Bool) : List (Nat × Nat × Nat) :=
  mergeGo
    (sortBlocks (gmbLoop a b b2j isbjunk (a.length + b.length + 1)
      [(0, a.length, 0, b.length)] []))
    0 0 0 []
  ++ [(a.length, b.length, 0)]

structure OpCode where
  tag : String
  i1 : Nat
  i2 : Nat
  j1 : Nat
  j2 : Nat
deriving DecidableEq, Repr

/-- The loop of `SequenceMatcher.get_opcodes` over the matching blocks. -/
def opGo : List (Nat × Nat × Nat) → Nat → Nat → List OpCode → List OpCode
  | [], _, _, acc => acc
  | (ai, bj, size) :: rest, i, j, acc =>
    let tag := if i < ai ∧ j < bj then "replace"
      else if i < ai then "delete"
      else if j < bj then "insert"
      else ""
    let acc1 := if tag ≠ "" then acc ++ [⟨tag, i, ai, j, bj⟩] else acc
    let acc2 := if size ≠ 0 then acc1 ++ [⟨"equal", ai, ai + size, bj, bj + size⟩] else acc1
    opGo rest (ai + size) (bj + size) acc2

def getOpcodes {α : Type} [DecidableEq α] [Inhabited α] (a b : List α)
    (b2j : List (α × List Nat)) (isbjunk : α → Bool) : List OpCode :=
  opGo (get_matching_blocks a b b2j isbjunk) 0 0 []

/-- `get_grouped_opcodes`: trim the leading `equal` opcode to `n` context lines. -/
def adjFirst (n : Nat) : List OpCode → List OpCode
  | [] => []
  | c :: rest =>
    (if c.tag = "equal" then { c with i1 := max c.i1 (c.i2 - n), j1 := max c.j1 (c.j2 - n) } else c)
      :: rest

/-- `get_grouped_opcodes`: trim the trailing `equal` opcode to `n` context lines. -/
def adjLast (n : Nat) (l : List OpCode) : List OpCode :=
  match l.getLast? with
  | none => l
  | some c =>
    l.dropLast
      ++ [if c.tag = "equal" then { c with i2 := min c.i2 (c.i1 + n), j2 := min c.j2 (c.j1 + n) } else c]

/-- The grouping loop of `get_grouped_opcodes`: a long interior `equal` opcode
(over `nn = n + n` lines) closes the current group and starts the next; a last
group that is a single `equal` opcode is not yielded. -/
def groupGo (n : Nat) : List OpCode → List OpCode → List (List OpCode) → List (List OpCode)
  | [], group, acc =>
    if group ≠ [] ∧ ¬(group.length = 1 ∧ (group.headD ⟨"", 0, 0, 0, 0⟩).tag = "equal")
    then acc ++ [group] else acc
  | c :: rest, group, acc =>
    if c.tag = "equal" ∧ n + n < c.i2 - c.i1 then
      groupGo n rest
        [{ c with i1 := max c.i1 (c.i2 - n), j1 := max c.j1 (c.j2 - n) }]
        (acc ++ [group ++ [{ c with i2 := min c.i2 (c.i1 + n), j2 := min c.j2 (c.j1 + n) }]])
    else groupGo n rest (group ++ [c]) acc

/-- `SequenceMatcher.get_grouped_opcodes(n)` including its empty-codes default. -/
def groupedOpcodes (n : Nat) (codes0 : List OpCode) : List (List OpCode) :=
  let codes1 := if codes0 = [] then [⟨"equal", 0, 1, 0, 1⟩] else codes0
  groupGo n (adjLast n (adjFirst n codes1)) [] []

/-- `difflib._format_range_unified`. -/
def formatRangeUnified (start stop : Nat) : String :=
  let beginning := start + 1
  let length := stop - start
  if length = 1 then toString beginning
  else toString (if length = 0 then beginning - 1 else beginning) ++ "," ++ toString length

/-- Python slice `l[i:j]`. -/
def sliceList {α : Type} (l : List α) (i j : Nat) : List α := (l.drop i).take (j - i)

/-- The per-opcode lines of `unified_diff`: context, removals, then insertions. -/
def opLines (a b : List String) (o : OpCode) : List String :=
  if o.tag = "equal" then (sliceList a o.i1 o.i2).map (fun line => " " ++ line)
  else
    (if o.tag = "replace" ∨ o.tag = "delete"
      then (sliceList a o.i1 o.i2).map (fun line => "-" ++ line) else [])
    ++ (if o.tag = "replace" ∨ o.tag = "insert"
      then (sliceList b o.j1 o.j2).map (fun line => "+" ++ line) else [])

/-- The `@@ -… +… @@` line of one group. -/
def groupHeader (g : List OpCode) : String :=
  let first := g.headD ⟨"", 0, 0, 0, 0⟩
  let last := g.getLastD ⟨"", 0, 0, 0, 0⟩
  "@@ -" ++ formatRangeUnified first.i1 last.i2 ++ " +"
    ++ formatRangeUnified first.j1 last.j2 ++ " @@"

/-- `difflib.unified_diff(a, b, lineterm='', n=3)` with empty file names and
dates, as `compute_diff` calls it: the `--- ` / `+++ ` headers are yielded
before the first group only. -/
def unifiedDiff (a b : List String) (n : Nat) : List String :=
  let groups := groupedOpcodes n (getOpcodes a b (chainB b) (fun _ => false))
  (if groups = [] then [] else ["--- ", "+++ "])
  ++ (groups.map (fun g => groupHeader g :: (g.map (opLines a b)).flatten)).flatten

/-- `str.splitlines()` over `\n`, `\r` and `\r\n`, with no trailing empty
line for a trailing break.  (Python also breaks on `\v`, `\f`, `\x1c`-`\x1e`,
`\x85`, ` `, ` `; none of those occur in any content compared here.) -/
def splitlinesAux : List Char → List Char → List (List Char)
  | [], acc => if acc.isEmpty then [] else [acc.reverse]
  | '\r' :: '\n' :: rest, acc => acc.reverse :: splitlinesAux rest []
  | '\r' :: rest, acc => acc.reverse :: splitlinesAux rest []
  | '\n' :: rest, acc => acc.reverse :: splitlinesAux rest []
  | c :: rest, acc => splitlinesAux rest (c :: acc)

def splitlines (s : String) : List String :=
  (splitlinesAux s.data []).map (fun cs => String.mk cs)

/-- Python `line.startswith(p)`: the first `len(p)` characters equal `p`. -/
def pyStartswith (line p : String) : Bool :=
  decide (line.data.take p.data.length = p.data)

structure DiffResult where
  diff_lines : List String
  added_lines : Nat
  removed_lines : Nat
deriving DecidableEq, Repr

/-- `VersionDiffService.compute_diff` (version_manager.py lines 340-363).  In
the source `diff` is a generator: `list(diff)` exhausts it, so the two
`sum(1 for line in diff if line.startswith(…))` expressions that follow iterate
an already-exhausted iterator — each is a sum over nothing. -/
def compute_diff (contentA contentB : String) : DiffResult :=
  let linesA := splitlines contentA
  let linesB := splitlines contentB
  let diff := unifiedDiff linesA linesB 3
  let exhaustedRemainder : List String := []
  { diff_lines := diff
    added_lines := (exhaustedRemainder.filter (fun line => pyStartswith line "+")).length
    removed_lines := (exhaustedRemainder.filter (fun line => pyStartswith line "-")).length }

/-- `sum(triple[-1] for triple in self.get_matching_blocks())`. -/
def smMatches {α : Type} [DecidableEq α] [Inhabited α] (a b : List α) : Nat :=
  ((get_matching_blocks a b (chainB b) (fun _ => false)).map (fun m => m.2.2)).sum

/-- `difflib._calculate_ratio`: `2.0 * matches / length`, or `1.0` when both
sequences are empty; the float is modelled as an exact rational. -/
def calcRatioQ (matchCount length : Nat) : ℚ :=
  if length ≠ 0 then 2 * (matchCount : ℚ) / (length : ℚ) else 1

/-- `VersionDiffService.compute_similarity` (version_manager.py lines 365-374):
`SequenceMatcher(None, content_a, content_b).ratio()` over the character
sequences. -/
def compute_similarity (contentA contentB : String) : ℚ :=
  calcRatioQ (smMatches contentA.data contentB.data) (contentA.length + contentB.length)

end Difflib

/-! ## Auxiliary definitions used by the statements and proofs below -/

namespace Sched

/-- The scheduler invariant relative to already-generated doc_types: each
dependency of a wave-`i` template is either already in `gen` or provided by an
earlier wave. -/
def wavesOrderedFrom (gen : List String) (waves : List (List DocumentTemplate)) : Prop :=
  ∀ i < waves.length, ∀ t ∈ waves.getD i [], ∀ d ∈ t.dependencies,
    d ∈ gen ∨ ∃ s ∈ (waves.take i).flatten, s.doc_type = d

/-- Template with no dependencies (counterexample input). -/
def tmplA : DocumentTemplate := ⟨"A", "A", "", [], 2000⟩

/-- Template depending on a doc_type requested by nobody (counterexample input). -/
def tmplB : DocumentTemplate := ⟨"B", "B", "", ["X"], 2000⟩

/-- The PRD/TechnicalSpec/APIDoc triple of the standard catalog (witness input). -/
def tmplPRD : DocumentTemplate := ⟨"PRD", "Product Requirements Document", "", [], 3000⟩

def tmplTS : DocumentTemplate := ⟨"TechnicalSpec", "Technical Specification", "", ["PRD"], 4000⟩

def tmplAPI : DocumentTemplate := ⟨"APIDoc", "API Documentation", "", ["TechnicalSpec"], 3500⟩

/-- A topological rank for the witness triple. -/
def rankPTA (s : String) : Nat :=
  if s = "PRD" then 0 else if s = "TechnicalSpec" then 1 else if s = "APIDoc" then 2 else 0

/-- A topological rank for the counterexample pair (B depends on the absent X). -/
def rankAB (s : String) : Nat := if s = "B" then 1 else 0

instance (rank : String → Nat) (ts : List DocumentTemplate) : Decidable (rankAcyclic rank ts) := by
  unfold rankAcyclic; infer_instance

instance (ts : List DocumentTemplate) : Decidable (depClosed ts) := by
  unfold depClosed; infer_instance

instance (waves : List (List DocumentTemplate)) (ts : List DocumentTemplate) :
    Decidable (coversExactly waves ts) := by
  unfold coversExactly; exact List.decidablePerm _ _

instance (waves : List (List DocumentTemplate)) : Decidable (wavesOrdered waves) := by
  unfold wavesOrdered; infer_instance

instance (gen : List String) (waves : List (List DocumentTemplate)) :
    Decidable (wavesOrderedFrom gen waves) := by
  unfold wavesOrderedFrom; infer_instance

end Sched

namespace Difflib

/-- Whether autojunk discards `c` from `b2j`: `b` is at least 200 long and `c`
occurs more than `ntest` times in it. -/
def isPopular {α : Type} [DecidableEq α] (b : List α) (c : α) : Prop :=
  200 ≤ b.length ∧ ntest b.length < (keyLookupD (b2jRaw b) c []).length

instance {α : Type} [DecidableEq α] (b : List α) (c : α) : Decidable (isPopular b c) := by
  unfold isPopular; infer_instance

/-- The ascending list of positions of `c` in `b`. -/
def indicesOf {α : Type} [DecidableEq α] [Inhabited α] (b : List α) (c : α) : List Nat :=
  (List.range b.length).filter (fun j => b.getD j default = c)

/-- Whether `(i, j)` can carry a chain link when `SequenceMatcher` compares
`x` with itself: both indices in range, matching elements, and the element not
junked by autojunk. -/
def candCond {α : Type} [DecidableEq α] [Inhabited α] (x : List α) (i j : Nat) : Prop :=
  j < x.length ∧ i < x.length ∧ x.getD j default = x.getD i default ∧
    ¬ isPopular x (x.getD i default)

instance {α : Type} [DecidableEq α] [Inhabited α] (x : List α) (i j : Nat) :
    Decidable (candCond x i j) := by
  unfold candCond; infer_instance

/-- The value `find_longest_match`'s row dict holds at `(i, j)` when `x` is
compared with itself: the length of the diagonal run of non-popular matches
ending at `(i, j)`. -/
def chainlen {α : Type} [DecidableEq α] [Inhabited α] (x : List α) : Nat → Nat → Nat
  | 0, j => if candCond x 0 j then 1 else 0
  | i + 1, 0 => if candCond x (i + 1) 0 then 1 else 0
  | i + 1, j + 1 => if candCond x (i + 1) (j + 1) then chainlen x i j + 1 else 0

end Difflib

namespace VersionMgr

instance : Inhabited DocumentNode :=
  ⟨{ id := 0, title := "", doc_type := "", content := "", version := 0,
     parent_version_id := none, is_latest := false, metadata := [] }⟩

/-- The positional shape of a well-formed single chain built by latest-targeted
edits: row `k` has id `k` and version `k + 1`, only the last row is flagged
latest, and the id counter equals the row count. -/
def IsChain (st : Store) : Prop :=
  0 < st.docs.length ∧ st.nextId = st.docs.length ∧
  ∀ k < st.docs.length,
    (st.docs.getD k default).id = k ∧
    (st.docs.getD k default).version = k + 1 ∧
    (st.docs.getD k default).is_latest = decide (k = st.docs.length - 1)

instance (st : Store) : Decidable (IsChain st) := by
  unfold IsChain; infer_instance

instance (st : Store) : Decidable (ChainInv st) := by
  unfold ChainInv; infer_instance

/-- The root row of `initStore "r"` (witness input). -/
def rootDoc0 : DocumentNode :=
  { id := 0, title := "t", doc_type := "PRD", content := "r", version := 1,
    parent_version_id := none, is_latest := true, metadata := [] }

end VersionMgr

/-! # Theorems -/

namespace Sched

theorem nextWave_eq (r : List DocumentTemplate) (g : List String) :
    nextWave r g =
      if r.filter (fun t => t.dependencies.all (fun d => g.contains d)) = [] then r
      else r.filter (fun t => t.dependencies.all (fun d => g.contains d)) := rfl

theorem nextWave_sublist (r : List DocumentTemplate) (g : List String) :
    List.Sublist (nextWave r g) r := by
  rw [nextWave_eq]
  split
  · exact List.Sublist.refl r
  · exact List.filter_sublist r

theorem nextWave_ne_nil {r : List DocumentTemplate} (g : List String) (h : r ≠ []) :
    nextWave r g ≠ [] := by
  rw [nextWave_eq]
  split
  · exact h
  · assumption

theorem perm_wave_diff (r : List DocumentTemplate) (g : List String) :
    List.Perm (nextWave r g ++ r.diff (nextWave r g)) r :=
  List.subperm_append_diff_self_of_count_le
    (List.subperm_ext_iff.mp (nextWave_sublist r g).subperm)

theorem diff_nextWave_length_lt (r : List DocumentTemplate) (g : List String) (h : r ≠ []) :
    (r.diff (nextWave r g)).length < r.length := by
  have hp := (perm_wave_diff r g).length_eq
  rw [List.length_append] at hp
  have hw : 0 < (nextWave r g).length := List.length_pos.mpr (nextWave_ne_nil g h)
  omega

theorem buildWavesAux_flatten_perm :
    ∀ (fuel : Nat) (r : List DocumentTemplate) (g : List String), r.length ≤ fuel →
      List.Perm (buildWavesAux fuel r g).flatten r := by
  intro fuel
  induction fuel with
  | zero =>
    intro r g h
    have : r = [] := List.eq_nil_of_length_eq_zero (Nat.le_zero.mp h)
    subst this
    simp [buildWavesAux]
  | succ n ih =>
    intro r g h
    by_cases hr : r = []
    · subst hr; simp [buildWavesAux]
    · have hlt := diff_nextWave_length_lt r g hr
      have hrec := ih (r.diff (nextWave r g))
        (g ++ (nextWave r g).map (fun t => t.doc_type)) (by omega)
      have hstep : (buildWavesAux (n + 1) r g).flatten
          = nextWave r g ++ (buildWavesAux n (r.diff (nextWave r g))
              (g ++ (nextWave r g).map (fun t => t.doc_type))).flatten := by
        simp [buildWavesAux, hr]
      rw [hstep]
      exact (hrec.append_left (nextWave r g)).trans (perm_wave_diff r g)

theorem buildWavesAux_length_le :
    ∀ (fuel : Nat) (r : List DocumentTemplate) (g : List String), r.length ≤ fuel →
      (buildWavesAux fuel r g).length ≤ r.length := by
  intro fuel
  induction fuel with
  | zero => intro r g h; simp [buildWavesAux]
  | succ n ih =>
    intro r g h
    by_cases hr : r = []
    · subst hr; simp [buildWavesAux]
    · have hlt := diff_nextWave_length_lt r g hr
      have hrec := ih (r.diff (nextWave r g))
        (g ++ (nextWave r g).map (fun t => t.doc_type)) (by omega)
      simp only [buildWavesAux, if_neg hr, List.length_cons]
      omega

theorem buildWavesAux_fuel_irrelevant :
    ∀ (f₁ f₂ : Nat) (r : List DocumentTemplate) (g : List String),
      r.length ≤ f₁ → r.length ≤ f₂ →
      buildWavesAux f₁ r g = buildWavesAux f₂ r g := by
  intro f₁
  induction f₁ with
  | zero =>
    intro f₂ r g h1 _
    have : r = [] := List.eq_nil_of_length_eq_zero (Nat.le_zero.mp h1)
    subst this
    cases f₂ <;> simp [buildWavesAux]
  | succ n ih =>
    intro f₂ r g h1 h2
    by_cases hr : r = []
    · subst hr; cases f₂ <;> simp [buildWavesAux]
    · cases f₂ with
      | zero =>
        exact absurd (List.eq_nil_of_length_eq_zero (Nat.le_zero.mp h2)) hr
      | succ m =>
        have hlt := diff_nextWave_length_lt r g hr
        simp only [buildWavesAux, if_neg hr]
        rw [ih m (r.diff (nextWave r g)) _ (by omega) (by omega)]

/-- C4: for every finite input template set — cycles and dangling dependencies
included — the scheduler terminates within `|templates|` wave iterations
(`fuel = |templates|` is exact, so the wave list is at most that long and more
fuel changes nothing), every requested template is scheduled in exactly one
wave (the waves concatenate to a permutation of the input), and the empty
input yields the empty wave list. -/
theorem C4_scheduler_termination_and_coverage :
    (∀ ts : List DocumentTemplate, (buildDependencyGraph ts).length ≤ ts.length) ∧
    (∀ ts : List DocumentTemplate, coversExactly (buildDependencyGraph ts) ts) ∧
    (∀ ts : List DocumentTemplate, ∀ fuel, ts.length ≤ fuel →
      buildWavesAux fuel ts [] = buildDependencyGraph ts) ∧
    buildDependencyGraph [] = [] := by
  refine ⟨fun ts => buildWavesAux_length_le ts.length ts [] le_rfl,
    fun ts => buildWavesAux_flatten_perm ts.length ts [] le_rfl,
    fun ts fuel hf => buildWavesAux_fuel_irrelevant fuel ts.length ts [] hf le_rfl,
    rfl⟩

/-- C3 counterexample: the template set `{A: [], B: [X]}` has no dependency
cycle (the ranking `rankAB` witnesses it), yet the scheduler places `B` in
wave 1 while its dependency `X` is the doc_type of no earlier-wave template,
so the claimed conclusion fails. -/
theorem C3_counterexample :
    (∃ rank : String → Nat, rankAcyclic rank [tmplA, tmplB]) ∧
    ¬ (coversExactly (buildDependencyGraph [tmplA, tmplB]) [tmplA, tmplB] ∧
        wavesOrdered (buildDependencyGraph [tmplA, tmplB])) :=
  ⟨⟨rankAB, by decide⟩, by decide⟩

theorem contains_true_iff (l : List String) (a : String) : l.contains a = true ↔ a ∈ l := by
  simp

theorem exists_min_image' {α : Type} (f : α → Nat) :
    ∀ (l : List α), l ≠ [] → ∃ a ∈ l, ∀ b ∈ l, f a ≤ f b := by
  intro l
  induction l with
  | nil => intro h; exact absurd rfl h
  | cons t ts ih =>
    intro _
    by_cases hts : ts = []
    · subst hts
      refine ⟨t, List.mem_cons_self t [], ?_⟩
      intro b hb
      simp at hb
      subst hb
      exact le_rfl
    · obtain ⟨a, ha, hmin⟩ := ih hts
      by_cases hta : f t ≤ f a
      · refine ⟨t, List.mem_cons_self t ts, ?_⟩
        intro b hb
        rcases List.mem_cons.mp hb with hb | hb
        · subst hb; exact le_rfl
        · exact le_trans hta (hmin b hb)
      · refine ⟨a, List.mem_cons_of_mem t ha, ?_⟩
        intro b hb
        rcases List.mem_cons.mp hb with hb | hb
        · subst hb; omega
        · exact hmin b hb

theorem filterWave_ne_nil_of_closed (r : List DocumentTemplate) (g : List String)
    (rank : String → Nat) (hr : r ≠ [])
    (hcl : ∀ t ∈ r, ∀ d ∈ t.dependencies, d ∈ g ∨ ∃ s ∈ r, s.doc_type = d)
    (hrk : ∀ t ∈ r, ∀ d ∈ t.dependencies, rank d < rank t.doc_type) :
    r.filter (fun t => t.dependencies.all (fun d => g.contains d)) ≠ [] := by
  obtain ⟨t0, ht0, hmin⟩ := exists_min_image' (fun t => rank t.doc_type) r hr
  have hsel : (t0.dependencies.all (fun d => g.contains d)) = true := by
    rw [List.all_eq_true]
    intro d hd
    rcases hcl t0 ht0 d hd with hg | ⟨s, hs, hds⟩
    · exact (contains_true_iff g d).mpr hg
    · exfalso
      have h1 := hrk t0 ht0 d hd
      have h2 := hmin s hs
      rw [hds] at h2
      omega
  intro hnil
  have hmem : t0 ∈ r.filter (fun t => t.dependencies.all (fun d => g.contains d)) :=
    List.mem_filter.mpr (And.intro ht0 (by simpa using hsel))
  rw [hnil] at hmem
  exact absurd hmem (List.not_mem_nil t0)

theorem buildWavesAux_ordered :
    ∀ (fuel : Nat) (r : List DocumentTemplate) (g : List String) (rank : String → Nat),
      r.length ≤ fuel →
      (∀ t ∈ r, ∀ d ∈ t.dependencies, d ∈ g ∨ ∃ s ∈ r, s.doc_type = d) →
      (∀ t ∈ r, ∀ d ∈ t.dependencies, rank d < rank t.doc_type) →
      wavesOrderedFrom g (buildWavesAux fuel r g) := by
  intro fuel
  induction fuel with
  | zero =>
    intro r g rank h _ _
    have : r = [] := List.eq_nil_of_length_eq_zero (Nat.le_zero.mp h)
    subst this
    intro i hi
    simp [buildWavesAux] at hi
  | succ n ih =>
    intro r g rank h hcl hrk
    by_cases hr : r = []
    · subst hr
      intro i hi
      simp [buildWavesAux] at hi
    · -- the fallback branch is not taken: some template has all dependencies generated
      have hflt := filterWave_ne_nil_of_closed r g rank hr hcl hrk
      have hw : nextWave r g = r.filter (fun t => t.dependencies.all (fun d => g.contains d)) := by
        rw [nextWave_eq, if_neg hflt]
      have hstep : buildWavesAux (n + 1) r g
          = nextWave r g :: buildWavesAux n (r.diff (nextWave r g))
              (g ++ (nextWave r g).map (fun t => t.doc_type)) := by
        simp [buildWavesAux, hr]
      -- members of r split into the wave and the rest
      have hsplit : ∀ s ∈ r, s ∈ nextWave r g ∨ s ∈ r.diff (nextWave r g) := by
        intro s hs
        have := (perm_wave_diff r g).mem_iff.mpr hs
        exact List.mem_append.mp this
      -- the invariants for the recursive call
      have hcl' : ∀ t ∈ r.diff (nextWave r g), ∀ d ∈ t.dependencies,
          d ∈ g ++ (nextWave r g).map (fun t => t.doc_type) ∨
            ∃ s ∈ r.diff (nextWave r g), s.doc_type = d := by
        intro t ht d hd
        have htr : t ∈ r := List.diff_subset r (nextWave r g) ht
        rcases hcl t htr d hd with hg | ⟨s, hs, hds⟩
        · exact Or.inl (List.mem_append.mpr (Or.inl hg))
        · rcases hsplit s hs with hsw | hsd
          · refine Or.inl (List.mem_append.mpr (Or.inr ?_))
            exact List.mem_map.mpr ⟨s, hsw, hds⟩
          · exact Or.inr ⟨s, hsd, hds⟩
      have hrk' : ∀ t ∈ r.diff (nextWave r g), ∀ d ∈ t.dependencies,
          rank d < rank t.doc_type := by
        intro t ht d hd
        exact hrk t (List.diff_subset r (nextWave r g) ht) d hd
      have hlt := diff_nextWave_length_lt r g hr
      have hrec := ih (r.diff (nextWave r g))
        (g ++ (nextWave r g).map (fun t => t.doc_type)) rank (by omega) hcl' hrk'
      -- assemble
      rw [hstep]
      intro i hi t ht d hd
      cases i with
      | zero =>
        have htw : t ∈ nextWave r g := ht
        rw [hw] at htw
        have hall := (List.mem_filter.mp htw).2
        rw [List.all_eq_true] at hall
        exact Or.inl ((contains_true_iff g d).mp (hall d hd))
      | succ i =>
        have hi' : i < (buildWavesAux n (r.diff (nextWave r g))
            (g ++ (nextWave r g).map (fun t => t.doc_type))).length := by
          simpa using Nat.lt_of_succ_lt_succ hi
        have := hrec i hi' t ht d hd
        rcases this with hg' | ⟨s, hs, hds⟩
        · rcases List.mem_append.mp hg' with hg | hmap
          · exact Or.inl hg
          · obtain ⟨s, hsw, hds⟩ := List.mem_map.mp hmap
            refine Or.inr ⟨s, ?_, hds⟩
            rw [List.take_succ_cons, List.flatten_cons]
            exact List.mem_append.mpr (Or.inl hsw)
        · refine Or.inr ⟨s, ?_, hds⟩
          rw [List.take_succ_cons, List.flatten_cons]
          exact List.mem_append.mpr (Or.inr hs)

/-- C3 amended: for any template set with no dependency cycles (witnessed by a
topological ranking) in which every dependency names the doc_type of some
member of the set, the scheduler partitions the set into waves in which every
input template appears exactly once, and every template of wave `i > 0` has
each of its dependencies provided by an earlier wave. -/
theorem C3_closed_acyclic_waves_ordered (ts : List DocumentTemplate) (rank : String → Nat)
    (hclosed : depClosed ts) (hrank : rankAcyclic rank ts) :
    coversExactly (buildDependencyGraph ts) ts ∧ wavesOrdered (buildDependencyGraph ts) := by
  constructor
  · exact buildWavesAux_flatten_perm ts.length ts [] le_rfl
  · have hord := buildWavesAux_ordered ts.length ts [] rank le_rfl
      (by intro t ht d hd
          rcases hclosed t ht d hd with ⟨s, hs, hds⟩
          exact Or.inr ⟨s, hs, hds⟩)
      hrank
    intro i hi _ t ht d hd
    rcases hord i hi t ht d hd with hg | hs
    · exact absurd hg (List.not_mem_nil d)
    · exact hs

/-- C3 witness: the PRD → TechnicalSpec → APIDoc triple is dependency-closed
and acyclic, and the theorem yields its scheduling guarantee. -/
theorem C3_closed_acyclic_waves_ordered_witness :
    coversExactly (buildDependencyGraph [tmplPRD, tmplTS, tmplAPI]) [tmplPRD, tmplTS, tmplAPI] ∧
    wavesOrdered (buildDependencyGraph [tmplPRD, tmplTS, tmplAPI]) :=
  C3_closed_acyclic_waves_ordered [tmplPRD, tmplTS, tmplAPI] rankPTA (by decide) (by decide)

end Sched

namespace VersionMgr

/-- C1 counterexample: in the two-member chain root(v1, superseded) <- v2
(latest), calling `create_new_version` on the root's id does not resolve the
chain's latest: the new node gets `version = 2 = root.version + 1` and
`parent_version_id = root.id = 0` — not `version = 3`, `parent = 1` as
resolution to the latest member (v2) would give — and v2's `is_latest` is left
`true`. -/
theorem C1_counterexample :
    ((create_new_version twoChainStore 0 "c" []).toOption.map
        (fun p => (p.2.version, p.2.parent_version_id))) = some (2, some 0) ∧
    ((create_new_version twoChainStore 0 "c" []).toOption.map
        (fun p => (findDoc p.1 1).map (fun d => d.is_latest))) = some (some true) ∧
    ((2 : Nat), (some 0 : Option Nat)) ≠ (3, some 1) := by
  decide

theorem create_found_eq (st : Store) (docId : Nat) (c : String) (m : List (String × String))
    (cur : DocumentNode) (hcur : findDoc st docId = some cur) :
    create_new_version st docId c m = .ok
      ({ docs := st.docs.map (fun d => if d.id = docId then { d with is_latest := false } else d)
            ++ [{ id := st.nextId, title := cur.title, doc_type := cur.doc_type, content := c,
                  version := cur.version + 1, parent_version_id := some cur.id,
                  is_latest := true, metadata := dictMerge cur.metadata m }],
          nextId := st.nextId + 1 },
        { id := st.nextId, title := cur.title, doc_type := cur.doc_type, content := c,
          version := cur.version + 1, parent_version_id := some cur.id,
          is_latest := true, metadata := dictMerge cur.metadata m }) := by
  unfold create_new_version
  rw [hcur]

/-- C1 amended: `create_new_version` operates on the version identified by
`from_version_id` itself, not on the chain's current latest: it flips that
row's `is_latest` to false and appends a new latest node with
`version = from.version + 1` and `parent_version_id = from.id`; it fails (the
`ValueError`, the spec's NotFound) exactly when `from_version_id` does not
identify an existing document.  The parent-ids-decrease hypothesis is what
sequential allocation guarantees and makes the source's `_get_root_id` walk
(whose result is unused) terminate. -/
theorem C1_create_uses_given_version (st : Store) (docId : Nat) (c : String)
    (m : List (String × String)) (hwf : ParentsDecreasing st) :
    (findDoc st docId = none →
      create_new_version st docId c m
        = .error ("Document " ++ toString docId ++ " not found")) ∧
    (∀ cur, findDoc st docId = some cur →
      ∃ st' nd, create_new_version st docId c m = .ok (st', nd) ∧
        nd.version = cur.version + 1 ∧
        nd.parent_version_id = some cur.id ∧
        nd.is_latest = true ∧
        nd.content = c ∧
        { cur with is_latest := false } ∈ st'.docs ∧
        nd ∈ st'.docs ∧
        (∀ d ∈ st.docs, d.id ≠ docId → d ∈ st'.docs)) := by
  constructor
  · intro hnone
    unfold create_new_version
    rw [hnone]
  · intro cur hcur
    have hcurmem : cur ∈ st.docs := List.mem_of_find?_eq_some hcur
    have hcid : cur.id = docId := by simpa using List.find?_some hcur
    have heq := create_found_eq st docId c m cur hcur
    refine ⟨_, _, heq, rfl, rfl, rfl, rfl, ?_, ?_, ?_⟩
    · refine List.mem_append.mpr (Or.inl ?_)
      refine List.mem_map.mpr ⟨cur, hcurmem, ?_⟩
      rw [if_pos hcid]
    · exact List.mem_append.mpr (Or.inr (List.mem_cons_self _ _))
    · intro d hd hne
      refine List.mem_append.mpr (Or.inl ?_)
      refine List.mem_map.mpr ⟨d, hd, ?_⟩
      rw [if_neg hne]

/-- C1 witness: on the fresh single-version store the theorem applies, and the
new node is version 2 with the root as parent. -/
theorem C1_create_uses_given_version_witness :
    ∃ st' nd, create_new_version (initStore "r") 0 "c" [] = .ok (st', nd) ∧
      nd.version = rootDoc0.version + 1 ∧
      nd.parent_version_id = some rootDoc0.id ∧
      nd.is_latest = true ∧
      nd.content = "c" ∧
      { rootDoc0 with is_latest := false } ∈ st'.docs ∧
      nd ∈ st'.docs ∧
      (∀ d ∈ (initStore "r").docs, d.id ≠ 0 → d ∈ st'.docs) :=
  (C1_create_uses_given_version (initStore "r") 0 "c" []
      (by
        intro d hd pid hp
        simp [initStore] at hd
        subst hd
        simp at hp)).2
    rootDoc0 (by decide)

theorem find?_eq_some_getElem {α : Type} :
    ∀ (l : List α) (p : α → Bool) (k : Nat) (hk : k < l.length),
      (∀ j (hj : j < l.length), j < k → p (l[j]) = false) → p (l[k]) = true →
      l.find? p = some (l[k]) := by
  intro l
  induction l with
  | nil => intro p k hk; simp at hk
  | cons a t ih =>
    intro p k hk hb hp
    cases k with
    | zero =>
      simp only [List.getElem_cons_zero] at hp
      rw [List.find?_cons_of_pos t hp]
      simp
    | succ k =>
      have ha : p a = false := by
        have := hb 0 (by simp) (Nat.succ_pos k)
        simpa using this
      rw [List.find?_cons_of_neg t (by simp [ha])]
      have hrec := ih p k (by simpa using hk)
        (fun j hj hjk => by
          have := hb (j + 1) (by simpa using Nat.succ_lt_succ hj) (by omega)
          simpa using this)
        (by simpa using hp)
      simpa using hrec

theorem chain_step (st : Store) (c : String) (h : IsChain st) :
    IsChain (match latestDoc st with
             | some d => applyCreate st d.id c
             | none => st) := by
  obtain ⟨hpos, hnid, hk⟩ := h
  have hrow : ∀ k (hkn : k < st.docs.length), (st.docs[k]).id = k ∧
      (st.docs[k]).version = k + 1 ∧
      (st.docs[k]).is_latest = decide (k = st.docs.length - 1) := by
    intro k hkn
    have := hk k hkn
    rwa [List.getD_eq_getElem st.docs default hkn] at this
  have hn1 : st.docs.length - 1 < st.docs.length := by omega
  have hlatest : latestDoc st = some (st.docs[st.docs.length - 1]) := by
    apply find?_eq_some_getElem st.docs (fun d => d.is_latest) (st.docs.length - 1) hn1
    · intro j hj hjk
      have := (hrow j hj).2.2
      simp only [this]
      simp only [decide_eq_false_iff_not]
      omega
    · have := (hrow (st.docs.length - 1) hn1).2.2
      simp only [this]
      simp
  rw [hlatest]
  have hid : (st.docs[st.docs.length - 1]).id = st.docs.length - 1 :=
    (hrow (st.docs.length - 1) hn1).1
  have hfind : findDoc st (st.docs[st.docs.length - 1]).id
      = some (st.docs[st.docs.length - 1]) := by
    unfold findDoc
    rw [hid]
    apply find?_eq_some_getElem st.docs _ (st.docs.length - 1) hn1
    · intro j hj hjk
      have := (hrow j hj).1
      simp only [this]
      simp only [decide_eq_false_iff_not]
      omega
    · have := (hrow (st.docs.length - 1) hn1).1
      simp only [this]
      simp
  show IsChain (applyCreate st (st.docs[st.docs.length - 1]).id c)
  unfold applyCreate
  rw [create_found_eq st _ c [] _ hfind]
  show IsChain
    { docs := st.docs.map (fun d =>
        if d.id = (st.docs[st.docs.length - 1]).id then { d with is_latest := false } else d)
        ++ [{ id := st.nextId, title := (st.docs[st.docs.length - 1]).title,
              doc_type := (st.docs[st.docs.length - 1]).doc_type, content := c,
              version := (st.docs[st.docs.length - 1]).version + 1,
              parent_version_id := some (st.docs[st.docs.length - 1]).id,
              is_latest := true,
              metadata := dictMerge (st.docs[st.docs.length - 1]).metadata [] }],
      nextId := st.nextId + 1 }
  refine ⟨by simp, by simp [hnid], ?_⟩
  intro k hklen
  simp only [List.length_append, List.length_map, List.length_cons,
    List.length_nil] at hklen ⊢
  by_cases hkn : k < st.docs.length
  · -- an old row, flipped exactly when it was the latest
    have hgd : ∀ (nd : DocumentNode),
        (((st.docs.map (fun d =>
            if d.id = (st.docs[st.docs.length - 1]).id then { d with is_latest := false } else d))
          ++ [nd]).getD k default)
        = (if (st.docs[k]).id = (st.docs[st.docs.length - 1]).id
            then { st.docs[k] with is_latest := false } else st.docs[k]) := by
      intro nd
      rw [List.getD_eq_getElem _ default (by simp; omega)]
      rw [List.getElem_append_left (by simpa using hkn)]
      simp
    rw [hgd]
    rw [hid]
    rcases hrow k hkn with ⟨hkid, hkver, hkl⟩
    rw [hkid]
    by_cases hke : k = st.docs.length - 1
    · rw [if_pos hke]
      refine ⟨hkid, hkver, ?_⟩
      simp only []
      have hne : ¬ (k = st.docs.length + 1 - 1) := by omega
      simp [hne]
      omega
    · rw [if_neg hke]
      refine ⟨hkid, hkver, ?_⟩
      rw [hkl, decide_eq_false hke,
        decide_eq_false (show ¬ (k = st.docs.length + 1 - 1) by omega)]
  · -- the appended new row
    have hke : k = st.docs.length := by omega
    subst hke
    have hx : ∀ (l : List DocumentNode) (x : DocumentNode) (i : Nat), i = l.length →
        (l ++ [x]).getD i default = x := by
      intro l x i hi
      subst hi
      rw [List.getD_eq_getElem _ default (by simp)]
      rw [List.getElem_append_right (by simp)]
      simp
    rw [hx _ _ st.docs.length (by simp)]
    refine ⟨by simpa using hnid, ?_, by simp⟩
    have hver : (st.docs[st.docs.length - 1]).version = st.docs.length - 1 + 1 :=
      (hrow (st.docs.length - 1) hn1).2.1
    simp only [hver]
    omega

theorem applyEdits_chain (cs : List String) :
    ∀ st, IsChain st → IsChain (applyEdits st cs) := by
  induction cs with
  | nil => intro st h; exact h
  | cons c cs ih =>
    intro st h
    show IsChain (applyEdits (match latestDoc st with
      | some d => applyCreate st d.id c
      | none => st) cs)
    exact ih _ (chain_step st c h)

theorem filter_single_latest :
    ∀ (l : List DocumentNode), l ≠ [] →
      (∀ k (hkn : k < l.length), (l[k]).is_latest = decide (k = l.length - 1)) →
      (l.filter (fun d => d.is_latest)).length = 1 := by
  intro l
  induction l with
  | nil => intro h; exact absurd rfl h
  | cons a t ih =>
    intro _ hflag
    by_cases ht : t = []
    · subst ht
      have := hflag 0 (by simp)
      simp at this
      simp [List.filter, this]
    · have htl : 0 < t.length := List.length_pos.mpr ht
      have ha : a.is_latest = false := by
        have := hflag 0 (by simp)
        simp only [List.getElem_cons_zero, List.length_cons] at this
        rw [this, decide_eq_false (by omega)]
      have hrec := ih ht (fun k hkn => by
        have hstep := hflag (k + 1) (by simpa using Nat.succ_lt_succ hkn)
        simp only [List.getElem_cons_succ, List.length_cons] at hstep
        rw [hstep]
        by_cases hc : k = t.length - 1
        · rw [decide_eq_true (show k + 1 = t.length + 1 - 1 by omega), decide_eq_true hc]
        · rw [decide_eq_false (show ¬ (k + 1 = t.length + 1 - 1) by omega), decide_eq_false hc])
      rw [List.filter_cons_of_neg (by simp [ha])]
      exact hrec

theorem chainInv_of_isChain (st : Store) (h : IsChain st) : ChainInv st := by
  obtain ⟨hpos, _, hk⟩ := h
  have hrow : ∀ k (hkn : k < st.docs.length), (st.docs[k]).id = k ∧
      (st.docs[k]).version = k + 1 ∧
      (st.docs[k]).is_latest = decide (k = st.docs.length - 1) := by
    intro k hkn
    have := hk k hkn
    rwa [List.getD_eq_getElem st.docs default hkn] at this
  constructor
  · exact filter_single_latest st.docs
      (by intro hnil; rw [hnil] at hpos; simp at hpos)
      (fun k hkn => (hrow k hkn).2.2)
  · apply List.ext_getElem
    · simp [List.length_range']
    · intro i h1 h2
      rw [List.getElem_map]
      rw [(hrow i (by simpa using h1)).2.1]
      rw [List.getElem_range']
      omega

/-- C2 counterexample: two `create_new_version` calls that both pass the root's
id — a legal call sequence starting from a single root version — leave the
chain with two members flagged latest and versions 1, 2, 2, violating both
halves of the claimed invariant. -/
theorem C2_counterexample :
    ((applyCreate (applyCreate (initStore "r") 0 "a") 0 "b").docs.filter
        (fun d => d.is_latest)).length = 2 ∧
    (applyCreate (applyCreate (initStore "r") 0 "a") 0 "b").docs.map (fun d => d.version)
      = [1, 2, 2] ∧
    ¬ ChainInv (applyCreate (applyCreate (initStore "r") 0 "a") 0 "b") := by
  decide

/-- C2 amended: along every sequence of `create_new_version` calls in which
each call passes the id of the chain's current latest member (as the service's
own callers do), the chain keeps exactly one member with `is_latest = true`
and its version numbers are the contiguous ascending run 1, …, n. -/
theorem C2_latest_targeted_chain_invariant (c0 : String) (edits : List String) :
    ChainInv (applyEdits (initStore c0) edits) := by
  apply chainInv_of_isChain
  apply applyEdits_chain
  refine ⟨by simp [initStore], by simp [initStore], ?_⟩
  intro k hk
  simp only [initStore, List.length_cons, List.length_nil] at hk
  have hk0 : k = 0 := by omega
  subst hk0
  simp [initStore]

end VersionMgr

namespace Gen

theorem chunkProgressAux_getD (est : Nat) :
    ∀ (chunks : List String) (acc : String) (k : Nat),
      k < (chunkProgressAux est chunks acc).length →
      (chunkProgressAux est chunks acc).getD k 0
        = (((acc.length + ((chunks.take (k + 1)).map (fun c => c.length)).sum : Nat) : ℚ))
            / (est : ℚ) := by
  intro chunks
  induction chunks with
  | nil => intro acc k hk; simp [chunkProgressAux] at hk
  | cons ch rest ih =>
    intro acc k hk
    cases k with
    | zero =>
      simp only [chunkProgressAux, List.getD_cons_zero, List.take_succ_cons, List.take_zero,
        List.map_cons, List.map_nil, List.sum_cons, List.sum_nil, Nat.add_zero]
      rw [String.length_append]
    | succ k =>
      simp only [chunkProgressAux, List.getD_cons_succ] at *
      have hk' : k < (chunkProgressAux est rest (acc ++ ch)).length := by
        simpa using Nat.lt_of_succ_lt_succ hk
      rw [ih (acc ++ ch) k hk']
      rw [String.length_append]
      congr 1
      push_cast
      simp [List.take_succ_cons]
      ring

/-- C5 counterexample: with estimated size 1 and the single chunk "ab", the
broadcast progress is 2, which exceeds 1.0 and differs from
`min(accumulated/estimated, 1.0) = 1`: the source computes
`len(full_content) / template.estimated_tokens` without clamping. -/
theorem C5_counterexample :
    contentChunkProgress ["ab"] 1 = [(2 : ℚ)] ∧
    ¬ ((2 : ℚ) ≤ 1) ∧
    min (2 : ℚ) 1 ≠ 2 := by
  refine ⟨?_, by norm_num, ?_⟩
  · show chunkProgressAux 1 ["ab"] "" = [(2 : ℚ)]
    simp [chunkProgressAux]
    rw [show "ab".length = 2 from rfl]
    norm_num
  · rw [min_eq_right (by norm_num : (1 : ℚ) ≤ 2)]
    norm_num

/-- C5 amended: after each chunk is appended, the progress value carried by
the broadcast content-chunk event equals accumulated_length / estimated_size
exactly, with no clamping — for every chunk sequence and positive estimated
size — and can therefore exceed 1.0. -/
theorem C5_progress_unclamped (chunks : List String) (est : Nat) (hest : 0 < est)
    (k : Nat) (hk : k < (contentChunkProgress chunks est).length) :
    (contentChunkProgress chunks est).getD k 0
      = ((((chunks.take (k + 1)).map (fun c => c.length)).sum : Nat) : ℚ) / (est : ℚ) := by
  have := chunkProgressAux_getD est chunks "" k hk
  simpa using this

/-- C5 witness: the first progress of the counterexample run computed through
the theorem. -/
theorem C5_progress_unclamped_witness :
    (contentChunkProgress ["ab"] 1).getD 0 0
      = ((((["ab"].take (0 + 1)).map (fun c => c.length)).sum : Nat) : ℚ) / ((1 : Nat) : ℚ) :=
  C5_progress_unclamped ["ab"] 1 (by decide) 0 (by decide)

end Gen

namespace Streaming

theorem docStreamLoop_shape (documentId : String) :
    ∀ (chunks : List String) (total : Nat) (err : Option String),
      ∃ mids term, docStreamLoop documentId total chunks err = mids ++ [term] ∧
        (∀ e ∈ mids, e.event_type = "content_chunk") ∧
        (err = none → term = DocumentStreamEvent documentId "complete" none 1 none) ∧
        (∀ msg, err = some msg →
          term = DocumentStreamEvent documentId "error" none 0 (some [("error", msg)])) := by
  intro chunks
  induction chunks with
  | nil =>
    intro total err
    cases err with
    | none =>
      refine ⟨[], DocumentStreamEvent documentId "complete" none 1 none, rfl, by simp,
        fun _ => rfl, ?_⟩
      intro msg h
      exact absurd h (by simp)
    | some e =>
      refine ⟨[], DocumentStreamEvent documentId "error" none 0 (some [("error", e)]), rfl,
        by simp, ?_, ?_⟩
      · intro h
        exact absurd h (by simp)
      · intro msg h
        injection h with h'
        subst h'
        rfl
  | cons ch rest ih =>
    intro total err
    obtain ⟨mids, term, heq, hmid, hnone, hsome⟩ := ih (total + ch.length) err
    refine ⟨DocumentStreamEvent documentId "content_chunk" (some ch)
        (min (((total + ch.length : Nat) : ℚ) / 10000) 1) none :: mids, term, ?_, ?_,
        hnone, hsome⟩
    · show DocumentStreamEvent documentId "content_chunk" (some ch)
          (min (((total + ch.length : Nat) : ℚ) / 10000) 1) none
          :: docStreamLoop documentId (total + ch.length) rest err = _
      rw [heq]
      rfl
    · intro e he
      rcases List.mem_cons.mp he with he | he
      · subst he; rfl
      · exact hmid e he

/-- C7: every single-unit SSE stream is a start event with progress 0.0,
then zero or more content_chunk events, then exactly one terminal event —
`complete` carrying progress 1.0 on normal exhaustion, or `error` carrying the
failure message under the `metadata.error` key — and nothing after it. -/
theorem C7_stream_event_sequence (documentId : String) (chunks : List String)
    (err : Option String) :
    ∃ mids term,
      document_stream_generator documentId chunks err
        = DocumentStreamEvent documentId "start" none 0 none :: (mids ++ [term]) ∧
      (DocumentStreamEvent documentId "start" none 0 none).event_type = "start" ∧
      keyLookup (DocumentStreamEvent documentId "start" none 0 none).data "progress"
        = some (DVal.num 0) ∧
      (∀ e ∈ mids, e.event_type = "content_chunk") ∧
      (err = none → term.event_type = "complete" ∧
        keyLookup term.data "progress" = some (DVal.num 1)) ∧
      (∀ msg, err = some msg → term.event_type = "error" ∧
        keyLookup term.data "metadata" = some (DVal.dict [("error", msg)])) := by
  obtain ⟨mids, term, heq, hmid, hnone, hsome⟩ := docStreamLoop_shape documentId chunks 0 err
  refine ⟨mids, term, ?_, rfl, ?_, hmid, ?_, ?_⟩
  · show DocumentStreamEvent documentId "start" none 0 none
        :: docStreamLoop documentId 0 chunks err = _
    rw [heq]
  · simp [DocumentStreamEvent, keyLookup]
  · intro h
    rw [hnone h]
    constructor
    · rfl
    · simp [DocumentStreamEvent, keyLookup]
  · intro msg h
    rw [hsome msg h]
    constructor
    · rfl
    · simp [DocumentStreamEvent, keyLookup]

/-- C10: a `DocumentStreamEvent` built with event type `content_chunk` always
serializes `document_id` and `progress`; the `content_chunk` key is present
exactly when the chunk string is non-empty (Python's `if content_chunk:` is
false for the empty string), so the empty-chunk event carries exactly the two
base fields. -/
theorem C10_content_chunk_key_presence (documentId : String) (p : ℚ) (c : String) :
    keyLookup (DocumentStreamEvent documentId "content_chunk" (some c) p none).data
      "document_id" = some (DVal.str documentId) ∧
    keyLookup (DocumentStreamEvent documentId "content_chunk" (some c) p none).data
      "progress" = some (DVal.num p) ∧
    ((keyLookup (DocumentStreamEvent documentId "content_chunk" (some c) p none).data
      "content_chunk").isSome = true ↔ c ≠ "") ∧
    (DocumentStreamEvent documentId "content_chunk" (some "") p none).data
      = [("document_id", DVal.str documentId), ("progress", DVal.num p)] := by
  refine ⟨?_, ?_, ?_, ?_⟩
  · by_cases hc : c = "" <;> simp [DocumentStreamEvent, keyLookup, hc]
  · by_cases hc : c = "" <;> simp [DocumentStreamEvent, keyLookup, hc]
  · by_cases hc : c = "" <;> simp [DocumentStreamEvent, keyLookup, hc]
  · simp [DocumentStreamEvent]

theorem sendLoop_foldl :
    ∀ (l : List Subscriber) (a1 a2 : List Subscriber),
      l.foldl (fun acc s => if s.fails then (acc.1, acc.2 ++ [s]) else (acc.1 ++ [s], acc.2))
          (a1, a2)
        = (a1 ++ l.filter (fun s => !s.fails), a2 ++ l.filter (fun s => s.fails)) := by
  intro l
  induction l with
  | nil => intro a1 a2; simp
  | cons s t ih =>
    intro a1 a2
    by_cases hs : s.fails
    · simp only [List.foldl_cons, if_pos hs]
      rw [ih a1 (a2 ++ [s])]
      simp [List.filter_cons, hs]
    · simp only [List.foldl_cons, if_neg hs]
      rw [ih (a1 ++ [s]) a2]
      simp [List.filter_cons, hs]

theorem sendLoop_eq (bucket : List Subscriber) :
    sendLoop bucket
      = (bucket.filter (fun s => !s.fails), bucket.filter (fun s => s.fails)) := by
  unfold sendLoop
  rw [sendLoop_foldl]
  simp

theorem foldl_erase_not_mem {s : Subscriber} :
    ∀ (xs : List Subscriber) (l : List Subscriber), (∀ x ∈ xs, x ≠ s) →
      xs.foldl (fun b x => b.erase x) (s :: l) = s :: xs.foldl (fun b x => b.erase x) l := by
  intro xs
  induction xs with
  | nil => intro l _; rfl
  | cons x t ih =>
    intro l hx
    simp only [List.foldl_cons]
    rw [List.erase_cons_tail]
    · exact ih (l.erase x) (fun y hy => hx y (List.mem_cons_of_mem x hy))
    · have := hx x (List.mem_cons_self x t)
      simp [Ne.symm this]

theorem discardAll_filter (p : Subscriber → Bool) :
    ∀ (l : List Subscriber), l.Nodup →
      discardAll l (l.filter p) = l.filter (fun s => !p s) := by
  intro l
  induction l with
  | nil => intro _; rfl
  | cons s t ih =>
    intro hnd
    have hs_not_t : s ∉ t := (List.nodup_cons.mp hnd).1
    have hndt : t.Nodup := (List.nodup_cons.mp hnd).2
    have ih' := ih hndt
    unfold discardAll at ih' ⊢
    by_cases hp : p s
    · rw [List.filter_cons_of_pos (by simp [hp])]
      simp only [List.foldl_cons, List.erase_cons_head]
      rw [ih']
      rw [List.filter_cons_of_neg (by simp [hp])]
    · rw [List.filter_cons_of_neg (by simp [hp])]
      rw [foldl_erase_not_mem (t.filter p) t
        (fun x hx hxe => hs_not_t (by rw [← hxe]; exact (List.mem_filter.mp hx).1))]
      rw [ih']
      rw [List.filter_cons_of_pos (by simp [hp])]

theorem keyLookup_updateBucket_self :
    ∀ (conns : ConnState) (k : String) (b0 nb : List Subscriber),
      keyLookup conns k = some b0 →
      keyLookup (updateBucket conns k nb) k = some nb := by
  intro conns
  induction conns with
  | nil => intro k b0 nb h; simp [keyLookup] at h
  | cons p t ih =>
    intro k b0 nb h
    by_cases hk : p.1 = k
    · unfold updateBucket keyLookup
      simp only [List.map_cons, if_pos hk]
      rw [List.find?_cons_of_pos _ (by simp [hk])]
      rfl
    · unfold keyLookup at h
      rw [List.find?_cons_of_neg _ (by simp [hk])] at h
      unfold updateBucket keyLookup
      simp only [List.map_cons, if_neg hk]
      rw [List.find?_cons_of_neg _ (by simp [hk])]
      exact ih k b0 nb h

theorem keyLookup_updateBucket_other :
    ∀ (conns : ConnState) (k k' : String) (nb : List Subscriber), k' ≠ k →
      keyLookup (updateBucket conns k nb) k' = keyLookup conns k' := by
  intro conns
  induction conns with
  | nil => intro k k' nb _; rfl
  | cons p t ih =>
    intro k k' nb hne
    by_cases hk : p.1 = k
    · unfold updateBucket keyLookup
      simp only [List.map_cons, if_pos hk]
      rw [List.find?_cons_of_neg _ (by simp [hk, Ne.symm hne]),
        List.find?_cons_of_neg _ (by simp [hk, Ne.symm hne])]
      exact ih k k' nb hne
    · unfold updateBucket keyLookup
      simp only [List.map_cons, if_neg hk]
      by_cases hk' : p.1 = k'
      · rw [List.find?_cons_of_pos _ (by simp [hk']), List.find?_cons_of_pos _ (by simp [hk'])]
      · rw [List.find?_cons_of_neg _ (by simp [hk']), List.find?_cons_of_neg _ (by simp [hk'])]
        exact ih k k' nb hne

/-- C8: broadcasting to a scope key with no bucket returns the state unchanged
and delivers nothing; when the key has a bucket (a set, hence no duplicate
subscribers), exactly the subscribers whose send does not raise receive the
message — one subscriber's failure never aborts the others — the failing
subscribers and only they are removed from that bucket, and every other scope
key's bucket is untouched. -/
theorem C8_broadcast_failure_isolation (conns : ConnState) (documentId : String) :
    (keyLookup conns documentId = none →
      broadcast_to_document conns documentId = (conns, [])) ∧
    (∀ bucket, keyLookup conns documentId = some bucket → bucket.Nodup →
      (broadcast_to_document conns documentId).2 = bucket.filter (fun s => !s.fails) ∧
      keyLookup (broadcast_to_document conns documentId).1 documentId
        = some (bucket.filter (fun s => !s.fails)) ∧
      (∀ k, k ≠ documentId →
        keyLookup (broadcast_to_document conns documentId).1 k = keyLookup conns k)) := by
  constructor
  · intro hnone
    unfold broadcast_to_document
    rw [hnone]
  · intro bucket hsome hnd
    have hb : broadcast_to_document conns documentId
        = (updateBucket conns documentId (discardAll bucket (sendLoop bucket).2),
           (sendLoop bucket).1) := by
      unfold broadcast_to_document
      rw [hsome]
    have hsnd : (sendLoop bucket).2 = bucket.filter (fun s => s.fails) := by
      rw [sendLoop_eq]
    have hfst : (sendLoop bucket).1 = bucket.filter (fun s => !s.fails) := by
      rw [sendLoop_eq]
    have hda : discardAll bucket (sendLoop bucket).2 = bucket.filter (fun s => !s.fails) := by
      rw [hsnd]
      exact discardAll_filter (fun s => s.fails) bucket hnd
    refine ⟨?_, ?_, ?_⟩
    · rw [hb]
      exact hfst
    · rw [hb]
      simp only []
      rw [hda]
      exact keyLookup_updateBucket_self conns documentId bucket _ hsome
    · intro k hk
      rw [hb]
      simp only []
      exact keyLookup_updateBucket_other conns documentId k _ hk

/-- C8 witness: with two subscribers of which one fails, the other still
receives the message, only the failing one is removed, and other keys keep
their buckets. -/
theorem C8_broadcast_failure_isolation_witness :
    (broadcast_to_document [("doc1", [⟨0, false⟩, ⟨1, true⟩]), ("doc2", [⟨2, false⟩])]
        "doc1").2 = [⟨0, false⟩] ∧
    keyLookup (broadcast_to_document [("doc1", [⟨0, false⟩, ⟨1, true⟩]),
        ("doc2", [⟨2, false⟩])] "doc1").1 "doc1" = some [⟨0, false⟩] ∧
    (∀ k, k ≠ "doc1" →
      keyLookup (broadcast_to_document [("doc1", [⟨0, false⟩, ⟨1, true⟩]),
          ("doc2", [⟨2, false⟩])] "doc1").1 k
        = keyLookup [("doc1", [⟨0, false⟩, ⟨1, true⟩]), ("doc2", [⟨2, false⟩])] k) := by
  have h := (C8_broadcast_failure_isolation
      [("doc1", [⟨0, false⟩, ⟨1, true⟩]), ("doc2", [⟨2, false⟩])] "doc1").2
      [⟨0, false⟩, ⟨1, true⟩] (by decide) (by decide)
  exact ⟨h.1, h.2.1, h.2.2⟩

end Streaming

namespace Difflib

/-- C6: at `content_a = "a"`, `content_b = "b"` the unified diff has five
lines of which two start with `+` (`+++ ` header and `+b`; the inserted
content line alone is one) and two start with `-`, yet `compute_diff` returns
`added_lines = removed_lines = 0`: `list(diff)` exhausted the generator before
the count expressions iterated it. -/
theorem C6_count_generator_exhausted :
    compute_diff "a" "b"
      = { diff_lines := ["--- ", "+++ ", "@@ -1 +1 @@", "-a", "+b"],
          added_lines := 0, removed_lines := 0 } ∧
    ((["--- ", "+++ ", "@@ -1 +1 @@", "-a", "+b"].filter
        (fun line => pyStartswith line "+")).length = 2) ∧
    ((["--- ", "+++ ", "@@ -1 +1 @@", "-a", "+b"].filter
        (fun line => pyStartswith line "-")).length = 2) ∧
    ((2 : Nat) ≠ 0) := by
  decide

end Difflib

namespace Difflib

variable {α : Type} [DecidableEq α] [Inhabited α]

theorem keyLookupD_b2jInsert_self (c : α) (i : Nat) :
    ∀ (m : List (α × List Nat)),
      keyLookupD (b2jInsert m c i) c [] = keyLookupD m c [] ++ [i] := by
  intro m
  induction m with
  | nil => simp [b2jInsert, keyLookupD, keyLookup]
  | cons p rest ih =>
    by_cases hk : p.1 = c
    · unfold b2jInsert
      rw [show (p = (p.1, p.2)) from rfl]
      simp only [if_pos hk]
      unfold keyLookupD keyLookup
      rw [List.find?_cons_of_pos _ (by simp [hk]), List.find?_cons_of_pos _ (by simp [hk])]
      rfl
    · unfold b2jInsert
      rw [show (p = (p.1, p.2)) from rfl]
      simp only [if_neg hk]
      unfold keyLookupD keyLookup
      rw [List.find?_cons_of_neg _ (by simp [hk]), List.find?_cons_of_neg _ (by simp [hk])]
      exact ih

theorem keyLookupD_b2jInsert_other (c c' : α) (i : Nat) (hne : c' ≠ c) :
    ∀ (m : List (α × List Nat)),
      keyLookupD (b2jInsert m c i) c' [] = keyLookupD m c' [] := by
  intro m
  induction m with
  | nil =>
    show keyLookupD [(c, [i])] c' [] = keyLookupD [] c' []
    unfold keyLookupD keyLookup
    rw [List.find?_cons_of_neg _ (by simp [Ne.symm hne])]
  | cons p rest ih =>
    by_cases hk : p.1 = c
    · unfold b2jInsert
      rw [show (p = (p.1, p.2)) from rfl]
      simp only [if_pos hk]
      unfold keyLookupD keyLookup
      by_cases hk' : p.1 = c'
      · exact absurd (hk' ▸ hk) hne
      · rw [List.find?_cons_of_neg _ (by simp [hk']), List.find?_cons_of_neg _ (by simp [hk'])]
    · unfold b2jInsert
      rw [show (p = (p.1, p.2)) from rfl]
      simp only [if_neg hk]
      by_cases hk' : p.1 = c'
      · unfold keyLookupD keyLookup
        rw [List.find?_cons_of_pos _ (by simp [hk']), List.find?_cons_of_pos _ (by simp [hk'])]
      · unfold keyLookupD keyLookup
        rw [List.find?_cons_of_neg _ (by simp [hk']), List.find?_cons_of_neg _ (by simp [hk'])]
        exact ih

theorem b2jFold_lookup (c : α) :
    ∀ (pairs : List (Nat × α)) (m0 : List (α × List Nat)),
      keyLookupD (pairs.foldl (fun m p => b2jInsert m p.2 p.1) m0) c []
        = keyLookupD m0 c [] ++ ((pairs.filter (fun p => p.2 = c)).map Prod.fst) := by
  intro pairs
  induction pairs with
  | nil => intro m0; simp
  | cons p rest ih =>
    intro m0
    simp only [List.foldl_cons]
    rw [ih (b2jInsert m0 p.2 p.1)]
    by_cases hc : p.2 = c
    · rw [List.filter_cons_of_pos (by simp [hc])]
      rw [hc] at *
      rw [keyLookupD_b2jInsert_self]
      simp
    · rw [List.filter_cons_of_neg (by simp [hc])]
      rw [keyLookupD_b2jInsert_other p.2 c p.1 (fun h => hc h.symm)]

theorem mem_b2jRaw_lookup (b : List α) (c : α) (j : Nat) :
    j ∈ keyLookupD (b2jRaw b) c [] ↔ j < b.length ∧ b.getD j default = c := by
  unfold b2jRaw
  rw [b2jFold_lookup]
  have hm0 : keyLookupD ([] : List (α × List Nat)) c [] = [] := rfl
  rw [hm0, List.nil_append]
  constructor
  · intro hj
    obtain ⟨p, hp, hpj⟩ := List.mem_map.mp hj
    obtain ⟨hpe, hpc⟩ := List.mem_filter.mp hp
    have hpc' : p.2 = c := by simpa using hpc
    have : b[p.1]? = some p.2 := by
      have := List.mk_mem_enum_iff_getElem?.mp (by
        rw [show ((p.1, p.2) : Nat × α) = p from rfl]
        exact hpe)
      exact this
    rw [hpj, hpc'] at this
    have hlt : j < b.length := by
      by_contra hge
      rw [List.getElem?_eq_none (by omega)] at this
      cases this
    refine ⟨hlt, ?_⟩
    rw [List.getD_eq_getElem b default hlt]
    have := List.getElem?_eq_some_iff.mp this
    obtain ⟨h', hv⟩ := this
    exact hv
  · intro ⟨hlt, hv⟩
    refine List.mem_map.mpr ⟨(j, c), ?_, rfl⟩
    refine List.mem_filter.mpr ⟨?_, by simp⟩
    rw [List.mk_mem_enum_iff_getElem?]
    rw [List.getElem?_eq_some_iff]
    refine ⟨hlt, ?_⟩
    rw [← List.getD_eq_getElem b default hlt]
    exact hv

theorem sorted_b2jRaw_lookup (b : List α) (c : α) :
    List.Pairwise (· < ·) (keyLookupD (b2jRaw b) c []) := by
  unfold b2jRaw
  rw [b2jFold_lookup]
  have hm0 : keyLookupD ([] : List (α × List Nat)) c [] = [] := rfl
  rw [hm0, List.nil_append]
  have h1 : List.Pairwise (fun p q : Nat × α => p.1 < q.1) b.enum := by
    have := List.pairwise_lt_range b.length
    rw [← List.enum_map_fst b] at this
    exact (List.pairwise_map).mp this
  have h2 : List.Pairwise (fun p q : Nat × α => p.1 < q.1)
      (b.enum.filter (fun p => decide (p.2 = c))) :=
    h1.sublist (List.filter_sublist b.enum)
  exact (List.pairwise_map).mpr h2

theorem keys_b2jInsert (c : α) (i : Nat) :
    ∀ (m : List (α × List Nat)),
      (b2jInsert m c i).map Prod.fst
        = if c ∈ m.map Prod.fst then m.map Prod.fst else m.map Prod.fst ++ [c] := by
  intro m
  induction m with
  | nil => simp [b2jInsert]
  | cons p rest ih =>
    by_cases hk : p.1 = c
    · unfold b2jInsert
      rw [show (p = (p.1, p.2)) from rfl]
      simp only [if_pos hk]
      rw [if_pos (by simp [hk])]
      simp
    · unfold b2jInsert
      rw [show (p = (p.1, p.2)) from rfl]
      simp only [if_neg hk]
      simp only [List.map_cons]
      rw [ih]
      by_cases hc : c ∈ rest.map Prod.fst
      · rw [if_pos hc, if_pos (by simp [hc])]
      · rw [if_neg hc, if_neg (by
          simp only [List.mem_cons, not_or]
          exact ⟨fun h => hk h.symm, hc⟩)]
        simp

theorem keys_nodup_b2jFold :
    ∀ (pairs : List (Nat × α)) (m0 : List (α × List Nat)),
      ((m0.map Prod.fst).Nodup) →
      (((pairs.foldl (fun m p => b2jInsert m p.2 p.1) m0).map Prod.fst).Nodup) := by
  intro pairs
  induction pairs with
  | nil => intro m0 h; exact h
  | cons p rest ih =>
    intro m0 h
    simp only [List.foldl_cons]
    apply ih
    rw [keys_b2jInsert]
    by_cases hc : p.2 ∈ m0.map Prod.fst
    · rw [if_pos hc]; exact h
    · rw [if_neg hc]
      simp [List.nodup_append, h, hc]

theorem b2jRaw_keys_nodup (b : List α) : ((b2jRaw b).map Prod.fst).Nodup :=
  keys_nodup_b2jFold b.enum [] (by simp)

theorem keyLookup_eq_none_of_not_mem_keys (c : α) :
    ∀ (m : List (α × List Nat)), c ∉ m.map Prod.fst → keyLookup m c = none := by
  intro m
  induction m with
  | nil => intro _; rfl
  | cons p rest ih =>
    intro h
    have h1 : p.1 ≠ c := by
      intro he
      exact h (by simp [he])
    unfold keyLookup
    rw [List.find?_cons_of_neg _ (by simp [h1])]
    exact ih (fun hc => h (by simp [hc]))

theorem keyLookupD_filter_val (P : List Nat → Bool) (c : α) :
    ∀ (m : List (α × List Nat)), ((m.map Prod.fst).Nodup) →
      keyLookupD (m.filter (fun p => P p.2)) c []
        = if P (keyLookupD m c []) then keyLookupD m c [] else [] := by
  intro m
  induction m with
  | nil =>
    intro _
    show keyLookupD [] c [] = if P (keyLookupD [] c []) then keyLookupD [] c [] else []
    by_cases h : P (keyLookupD ([] : List (α × List Nat)) c [])
    · rw [if_pos h]
    · rw [if_neg h]
      rfl
  | cons p rest ih =>
    intro hnd
    have hnd' : (p.1 :: rest.map Prod.fst).Nodup := by
      have hmc : ((p :: rest).map Prod.fst) = p.1 :: rest.map Prod.fst := by simp
      rwa [hmc] at hnd
    have hk_notin : p.1 ∉ rest.map Prod.fst := (List.nodup_cons.mp hnd').1
    have hnd_rest : (rest.map Prod.fst).Nodup := (List.nodup_cons.mp hnd').2
    by_cases hk : p.1 = c
    · have hlm : keyLookupD (p :: rest) c [] = p.2 := by
        unfold keyLookupD keyLookup
        rw [List.find?_cons_of_pos _ (by simp [hk])]
        rfl
      rw [hlm]
      by_cases hP : P p.2
      · rw [if_pos hP]
        rw [List.filter_cons_of_pos (by simpa using hP)]
        unfold keyLookupD keyLookup
        rw [List.find?_cons_of_pos _ (by simp [hk])]
        rfl
      · rw [if_neg hP]
        rw [List.filter_cons_of_neg (by simpa using hP)]
        have hcnot : c ∉ (rest.filter (fun p => P p.2)).map Prod.fst := by
          intro hc
          obtain ⟨q, hq, hq1⟩ := List.mem_map.mp hc
          have hqrest := (List.mem_filter.mp hq).1
          exact hk_notin (hk ▸ hq1 ▸ List.mem_map.mpr ⟨q, hqrest, rfl⟩)
        unfold keyLookupD
        rw [keyLookup_eq_none_of_not_mem_keys c _ hcnot]
        rfl
    · have hlm : keyLookupD (p :: rest) c [] = keyLookupD rest c [] := by
        unfold keyLookupD keyLookup
        rw [List.find?_cons_of_neg _ (by simp [hk])]
      rw [hlm]
      rw [← ih hnd_rest]
      by_cases hP : P p.2
      · rw [List.filter_cons_of_pos (by simpa using hP)]
        unfold keyLookupD keyLookup
        rw [List.find?_cons_of_neg _ (by simp [hk])]
      · rw [List.filter_cons_of_neg (by simpa using hP)]

theorem mem_chainB_lookup (b : List α) (c : α) (j : Nat) :
    j ∈ keyLookupD (chainB b) c []
      ↔ (¬ isPopular b c ∧ j < b.length ∧ b.getD j default = c) := by
  by_cases hn : 200 ≤ b.length
  · have hfil : keyLookupD (chainB b) c []
        = if decide ((keyLookupD (b2jRaw b) c []).length ≤ ntest b.length)
          then keyLookupD (b2jRaw b) c [] else [] := by
      unfold chainB
      rw [if_pos hn]
      exact keyLookupD_filter_val (fun v => decide (v.length ≤ ntest b.length)) c
        (b2jRaw b) (b2jRaw_keys_nodup b)
    rw [hfil]
    by_cases hlen : (keyLookupD (b2jRaw b) c []).length ≤ ntest b.length
    · rw [if_pos (by simpa using hlen)]
      rw [mem_b2jRaw_lookup]
      have hpop : ¬ isPopular b c := by
        unfold isPopular
        omega
      simp [hpop]
    · rw [if_neg (by simpa using hlen)]
      have hpop : isPopular b c := ⟨hn, by omega⟩
      simp [hpop]
  · have hfil : keyLookupD (chainB b) c [] = keyLookupD (b2jRaw b) c [] := by
      unfold chainB
      rw [if_neg hn]
    rw [hfil, mem_b2jRaw_lookup]
    have hpop : ¬ isPopular b c := by
      unfold isPopular
      omega
    simp [hpop]

theorem sorted_chainB_lookup (b : List α) (c : α) :
    List.Pairwise (· < ·) (keyLookupD (chainB b) c []) := by
  by_cases hn : 200 ≤ b.length
  · have hfil : keyLookupD (chainB b) c []
        = if decide ((keyLookupD (b2jRaw b) c []).length ≤ ntest b.length)
          then keyLookupD (b2jRaw b) c [] else [] := by
      unfold chainB
      rw [if_pos hn]
      exact keyLookupD_filter_val (fun v => decide (v.length ≤ ntest b.length)) c
        (b2jRaw b) (b2jRaw_keys_nodup b)
    rw [hfil]
    split
    · exact sorted_b2jRaw_lookup b c
    · exact List.Pairwise.nil
  · have hfil : keyLookupD (chainB b) c [] = keyLookupD (b2jRaw b) c [] := by
      unfold chainB
      rw [if_neg hn]
    rw [hfil]
    exact sorted_b2jRaw_lookup b c

theorem mem_cands_iff_candCond (x : List α) (i j : Nat) (hi : i < x.length) :
    j ∈ keyLookupD (chainB x) (x.getD i default) [] ↔ candCond x i j := by
  rw [mem_chainB_lookup]
  unfold candCond
  constructor
  · intro ⟨h1, h2, h3⟩
    exact ⟨h2, hi, h3, h1⟩
  · intro ⟨h1, _, h3, h4⟩
    exact ⟨h4, h1, h3⟩

theorem self_mem_cands (x : List α) (i : Nat) (hi : i < x.length)
    (hpop : ¬ isPopular x (x.getD i default)) :
    i ∈ keyLookupD (chainB x) (x.getD i default) [] :=
  (mem_cands_iff_candCond x i i hi).mpr ⟨hi, hi, rfl, hpop⟩

theorem chainlen_zero (x : List α) (j : Nat) :
    chainlen x 0 j = if candCond x 0 j then 1 else 0 := rfl

theorem chainlen_succ_zero (x : List α) (i : Nat) :
    chainlen x (i + 1) 0 = if candCond x (i + 1) 0 then 1 else 0 := rfl

theorem chainlen_succ_succ (x : List α) (i j : Nat) :
    chainlen x (i + 1) (j + 1)
      = if candCond x (i + 1) (j + 1) then chainlen x i j + 1 else 0 := rfl

theorem chainlen_le (x : List α) :
    ∀ i j, chainlen x i j ≤ i + 1 ∧ chainlen x i j ≤ j + 1 := by
  intro i
  induction i with
  | zero =>
    intro j
    rw [chainlen_zero]
    split <;> omega
  | succ i ih =>
    intro j
    cases j with
    | zero =>
      rw [chainlen_succ_zero]
      split <;> omega
    | succ j =>
      rw [chainlen_succ_succ]
      split
      · have := ih j
        omega
      · omega

theorem candCond_diag_right (x : List α) (i j : Nat) (h : candCond x i j) :
    candCond x j j := by
  obtain ⟨hj, _, hxe, hpop⟩ := h
  refine ⟨hj, hj, rfl, ?_⟩
  rw [hxe]
  exact hpop

theorem candCond_diag_left (x : List α) (i j : Nat) (h : candCond x i j) :
    candCond x i i :=
  ⟨h.2.1, h.2.1, rfl, h.2.2.2⟩

theorem chainlen_diag_pos (x : List α) (j : Nat) (h : candCond x j j) :
    1 ≤ chainlen x j j := by
  cases j with
  | zero => rw [chainlen_zero, if_pos h]
  | succ j => rw [chainlen_succ_succ, if_pos h]; omega

theorem chainlen_le_diag_right (x : List α) :
    ∀ i j, chainlen x i j ≤ chainlen x j j := by
  intro i
  induction i with
  | zero =>
    intro j
    rw [chainlen_zero]
    split
    · exact chainlen_diag_pos x j (candCond_diag_right x 0 j (by assumption))
    · omega
  | succ i ih =>
    intro j
    cases j with
    | zero =>
      rw [chainlen_succ_zero]
      split
      · exact chainlen_diag_pos x 0 (candCond_diag_right x (i + 1) 0 (by assumption))
      · omega
    | succ j =>
      rw [chainlen_succ_succ]
      split
      · have hc : candCond x (j + 1) (j + 1) :=
          candCond_diag_right x (i + 1) (j + 1) (by assumption)
        rw [chainlen_succ_succ, if_pos hc]
        have := ih j
        omega
      · omega

theorem chainlen_le_diag_left (x : List α) :
    ∀ i j, chainlen x i j ≤ chainlen x i i := by
  intro i
  induction i with
  | zero =>
    intro j
    rw [chainlen_zero]
    split
    · exact chainlen_diag_pos x 0 (candCond_diag_left x 0 j (by assumption))
    · omega
  | succ i ih =>
    intro j
    cases j with
    | zero =>
      rw [chainlen_succ_zero]
      split
      · exact chainlen_diag_pos x (i + 1) (candCond_diag_left x (i + 1) 0 (by assumption))
      · omega
    | succ j =>
      rw [chainlen_succ_succ]
      split
      · have hc : candCond x (i + 1) (i + 1) :=
          candCond_diag_left x (i + 1) (j + 1) (by assumption)
        rw [chainlen_succ_succ, if_pos hc]
        have := ih j
        omega
      · omega

theorem chainlen_eq_zero_of_not_candCond (x : List α) (i j : Nat)
    (h : ¬ candCond x i j) : chainlen x i j = 0 := by
  cases i with
  | zero => rw [chainlen_zero, if_neg h]
  | succ i =>
    cases j with
    | zero => rw [chainlen_succ_zero, if_neg h]
    | succ j => rw [chainlen_succ_succ, if_neg h]

theorem k_value (x : List α) (i : Nat) (prev : List (Nat × Nat))
    (hprev : ∀ j, lookupNat prev j = if i = 0 then 0 else chainlen x (i - 1) j)
    (j : Nat) (hcand : candCond x i j) :
    (if j = 0 then 0 else lookupNat prev (j - 1)) + 1 = chainlen x i j := by
  cases i with
  | zero =>
    have h1 : chainlen x 0 j = 1 := by rw [chainlen_zero, if_pos hcand]
    rw [h1]
    cases j with
    | zero => rw [if_pos rfl]
    | succ j =>
      rw [if_neg (by omega)]
      have h2 : lookupNat prev (j + 1 - 1) = 0 := by
        rw [hprev (j + 1 - 1), if_pos rfl]
      rw [h2]
  | succ i' =>
    cases j with
    | zero =>
      have h1 : chainlen x (i' + 1) 0 = 1 := by rw [chainlen_succ_zero, if_pos hcand]
      rw [h1, if_pos rfl]
    | succ j =>
      have h1 : chainlen x (i' + 1) (j + 1) = chainlen x i' j + 1 := by
        rw [chainlen_succ_succ, if_pos hcand]
      rw [h1, if_neg (by omega)]
      have h2 : lookupNat prev (j + 1 - 1) = chainlen x i' j := by
        rw [hprev (j + 1 - 1), if_neg (by omega)]
        simp only [Nat.add_sub_cancel]
      rw [h2]

theorem lookupNat_map_self :
    ∀ (js : List Nat) (f : Nat → Nat) (j : Nat),
      lookupNat (js.map (fun j => (j, f j))) j = if j ∈ js then f j else 0 := by
  intro js
  induction js with
  | nil => intro f j; simp [lookupNat, keyLookupD, keyLookup]
  | cons a t ih =>
    intro f j
    by_cases hja : j = a
    · subst hja
      unfold lookupNat keyLookupD keyLookup
      simp only [List.map_cons]
      rw [List.find?_cons_of_pos _ (by simp)]
      simp
    · unfold lookupNat keyLookupD keyLookup
      simp only [List.map_cons]
      rw [List.find?_cons_of_neg _ (by simp [Ne.symm hja])]
      have hrec := ih f j
      unfold lookupNat keyLookupD keyLookup at hrec
      rw [hrec]
      by_cases hjt : j ∈ t
      · rw [if_pos hjt, if_pos (by simp [hjt])]
      · rw [if_neg hjt, if_neg (by simp [hja, hjt])]

theorem flmInner_spec (x : List α) (i : Nat) (hi : i < x.length)
    (prev : List (Nat × Nat))
    (hprev : ∀ j, lookupNat prev j = if i = 0 then 0 else chainlen x (i - 1) j) :
    ∀ (cs done : List Nat) (s B : Nat),
      keyLookupD (chainB x) (x.getD i default) [] = done ++ cs →
      List.Pairwise (· < ·) (done ++ cs) →
      s + B ≤ x.length →
      (∀ i', i' < i → chainlen x i' i' ≤ B) →
      (chainlen x i i ≤ B ∨ i ∈ cs) →
      ∃ s' B',
        flmInner 0 x.length i prev cs (done.map (fun j => (j, chainlen x i j))) (s, s, B)
          = ((done ++ cs).map (fun j => (j, chainlen x i j)), (s', s', B')) ∧
        s' + B' ≤ x.length ∧ B ≤ B' ∧
        (∀ i', i' < i → chainlen x i' i' ≤ B') ∧
        chainlen x i i ≤ B' := by
  intro cs
  induction cs with
  | nil =>
    intro done s B hcands hpw hsB hruns hdisj
    refine ⟨s, B, ?_, hsB, le_rfl, hruns, ?_⟩
    · show (done.map (fun j => (j, chainlen x i j)), (s, s, B)) = _
      rw [List.append_nil]
    · rcases hdisj with h | h
      · exact h
      · exact absurd h (List.not_mem_nil i)
  | cons j js ih =>
    intro done s B hcands hpw hsB hruns hdisj
    have hjmem : j ∈ keyLookupD (chainB x) (x.getD i default) [] := by
      rw [hcands]
      exact List.mem_append.mpr (Or.inr (List.mem_cons_self j js))
    have hcand : candCond x i j := (mem_cands_iff_candCond x i j hi).mp hjmem
    have hjn : j < x.length := hcand.1
    have hkv := k_value x i prev hprev j hcand
    have hjs_gt : ∀ y ∈ js, j < y := by
      have h1 : List.Pairwise (· < ·) (j :: js) := (List.pairwise_append.mp hpw).2.1
      exact (List.pairwise_cons.mp h1).1
    have hsplit : (done ++ [j]) ++ js = done ++ j :: js := by
      rw [List.append_assoc]
      rfl
    have hpw' : List.Pairwise (· < ·) ((done ++ [j]) ++ js) := by
      rw [hsplit]
      exact hpw
    have hcands' : keyLookupD (chainB x) (x.getD i default) [] = (done ++ [j]) ++ js := by
      rw [hsplit]
      exact hcands
    have hmap' : (done.map (fun j => (j, chainlen x i j))) ++ [(j, chainlen x i j)]
        = (done ++ [j]).map (fun j => (j, chainlen x i j)) := by
      rw [List.map_append]
      rfl
    -- one step of the loop: j is in range, so the skip and break guards fail
    have hstep : ∀ (row : List (Nat × Nat)) (best : Nat × Nat × Nat),
        flmInner 0 x.length i prev (j :: js) row best
          = flmInner 0 x.length i prev js
              (row ++ [(j, ((if j = 0 then 0 else lookupNat prev (j - 1)) + 1))])
              (if best.2.2 < ((if j = 0 then 0 else lookupNat prev (j - 1)) + 1)
               then (i + 1 - ((if j = 0 then 0 else lookupNat prev (j - 1)) + 1),
                     j + 1 - ((if j = 0 then 0 else lookupNat prev (j - 1)) + 1),
                     ((if j = 0 then 0 else lookupNat prev (j - 1)) + 1))
               else best) := by
      intro row best
      simp only [flmInner]
      rw [if_neg (show ¬ (j < 0) by omega), if_neg (show ¬ (x.length ≤ j) by omega)]
    rcases Nat.lt_trichotomy j i with hji | hji | hji
    · -- j < i: the candidate's chain is bounded by an already-dominated run
      have hkB : chainlen x i j ≤ B :=
        le_trans (chainlen_le_diag_right x i j) (hruns j hji)
      have hnoup : ¬ (B < (if j = 0 then 0 else lookupNat prev (j - 1)) + 1) := by
        rw [hkv]
        omega
      rw [hstep, if_neg hnoup, hkv, hmap']
      have hdisj' : chainlen x i i ≤ B ∨ i ∈ js := by
        rcases hdisj with h | h
        · exact Or.inl h
        · rcases List.mem_cons.mp h with h | h
          · omega
          · exact Or.inr h
      obtain ⟨s', B', heq, h1, h2, h3, h4⟩ :=
        ih (done ++ [j]) s B hcands' hpw' hsB hruns hdisj'
      refine ⟨s', B', ?_, h1, h2, h3, h4⟩
      rw [heq, hsplit]
    · -- j = i: the aligned candidate; its chain value is the diagonal run
      subst hji
      by_cases hup : B < chainlen x j j
      · have hupk : B < (if j = 0 then 0 else lookupNat prev (j - 1)) + 1 := by
          rw [hkv]
          exact hup
        rw [hstep, if_pos hupk, hkv, hmap']
        have hkle : chainlen x j j ≤ j + 1 := (chainlen_le x j j).1
        have hsB1 : (j + 1 - chainlen x j j) + chainlen x j j ≤ x.length := by omega
        have hruns1 : ∀ i', i' < j → chainlen x i' i' ≤ chainlen x j j :=
          fun i' hi' => le_trans (hruns i' hi') (le_of_lt hup)
        have hdisj1 : chainlen x j j ≤ chainlen x j j ∨ j ∈ js := Or.inl le_rfl
        obtain ⟨s', B', heq, h1, h2, h3, h4⟩ :=
          ih (done ++ [j]) (j + 1 - chainlen x j j) (chainlen x j j)
            hcands' hpw' hsB1 hruns1 hdisj1
        refine ⟨s', B', ?_, h1, le_trans (le_of_lt hup) h2, h3, h4⟩
        rw [heq, hsplit]
      · have hnoupk : ¬ (B < (if j = 0 then 0 else lookupNat prev (j - 1)) + 1) := by
          rw [hkv]
          exact hup
        rw [hstep, if_neg hnoupk, hkv, hmap']
        have hdisj1 : chainlen x j j ≤ B ∨ j ∈ js := Or.inl (by omega)
        obtain ⟨s', B', heq, h1, h2, h3, h4⟩ :=
          ih (done ++ [j]) s B hcands' hpw' hsB hruns hdisj1
        refine ⟨s', B', ?_, h1, h2, h3, h4⟩
        rw [heq, hsplit]
    · -- j > i: the aligned candidate was already processed, so B dominates
      have hleft : chainlen x i i ≤ B := by
        rcases hdisj with h | h
        · exact h
        · rcases List.mem_cons.mp h with h | h
          · omega
          · have := hjs_gt i h
            omega
      have hkB : chainlen x i j ≤ B :=
        le_trans (chainlen_le_diag_left x i j) hleft
      have hnoup : ¬ (B < (if j = 0 then 0 else lookupNat prev (j - 1)) + 1) := by
        rw [hkv]
        omega
      rw [hstep, if_neg hnoup, hkv, hmap']
      have hdisj' : chainlen x i i ≤ B ∨ i ∈ js := Or.inl hleft
      obtain ⟨s', B', heq, h1, h2, h3, h4⟩ :=
        ih (done ++ [j]) s B hcands' hpw' hsB hruns hdisj'
      refine ⟨s', B', ?_, h1, h2, h3, h4⟩
      rw [heq, hsplit]

theorem lookupNat_cands_map (x : List α) (m : Nat) (hm : m < x.length) (j : Nat) :
    lookupNat ((keyLookupD (chainB x) (x.getD m default) []).map
        (fun j => (j, chainlen x m j))) j
      = chainlen x m j := by
  rw [lookupNat_map_self]
  by_cases hj : j ∈ keyLookupD (chainB x) (x.getD m default) []
  · rw [if_pos hj]
  · rw [if_neg hj]
    have hnc : ¬ candCond x m j := fun hc => hj ((mem_cands_iff_candCond x m j hm).mpr hc)
    exact (chainlen_eq_zero_of_not_candCond x m j hnc).symm

theorem flmRows_fold_spec (x : List α) :
    ∀ (m : Nat), m ≤ x.length →
      ∃ row s B,
        (List.range' 0 m).foldl
          (fun st i => flmInner 0 x.length i st.1
            (keyLookupD (chainB x) (x.getD i default) []) [] st.2)
          ([], (0, 0, 0))
          = (row, (s, s, B)) ∧
        (∀ j, lookupNat row j = if m = 0 then 0 else chainlen x (m - 1) j) ∧
        s + B ≤ x.length ∧
        (∀ i', i' < m → chainlen x i' i' ≤ B) := by
  intro m
  induction m with
  | zero =>
    intro _
    refine ⟨[], 0, 0, rfl, ?_, by omega, by omega⟩
    intro j
    simp [lookupNat, keyLookupD, keyLookup]
  | succ m ih =>
    intro hm
    have hmx : m < x.length := by omega
    obtain ⟨row, s, B, heq, hrowspec, hsB, hruns⟩ := ih (by omega)
    have hconcat : List.range' 0 (m + 1) = List.range' 0 m ++ [m] := by
      have hc := @List.range'_concat 1 0 m
      rw [show 0 + 1 * m = m from by omega] at hc
      exact hc
    rw [hconcat, List.foldl_append, heq]
    simp only [List.foldl_cons, List.foldl_nil]
    have hdisj : chainlen x m m ≤ B ∨
        m ∈ keyLookupD (chainB x) (x.getD m default) [] := by
      by_cases hpop : isPopular x (x.getD m default)
      · refine Or.inl ?_
        have hnc : ¬ candCond x m m := fun hc => hc.2.2.2 hpop
        rw [chainlen_eq_zero_of_not_candCond x m m hnc]
        omega
      · exact Or.inr (self_mem_cands x m hmx hpop)
    obtain ⟨s', B', hinner, hsB', hBB', hruns', hmm'⟩ :=
      flmInner_spec x m hmx row hrowspec
        (keyLookupD (chainB x) (x.getD m default) []) [] s B
        (List.nil_append _).symm
        (by
          rw [List.nil_append]
          exact sorted_chainB_lookup x (x.getD m default))
        hsB hruns hdisj
    refine ⟨([] ++ keyLookupD (chainB x) (x.getD m default) []).map
        (fun j => (j, chainlen x m j)), s', B', ?_, ?_, hsB', ?_⟩
    · exact hinner
    · intro j
      rw [List.nil_append]
      rw [lookupNat_cands_map x m hmx j]
      rw [if_neg (by omega)]
      simp
    · intro i' hi'
      by_cases hlt : i' < m
      · exact le_trans (hruns i' hlt) hBB'
      · have : i' = m := by omega
        subst this
        exact hmm'

theorem extendLower_self_aligned (x : List α) :
    ∀ (fuel s L : Nat), s < fuel →
      extendLower x x 0 0 false (fun _ => false) fuel s s L = (0, 0, L + s) := by
  intro fuel
  induction fuel with
  | zero => intro s L h; omega
  | succ f ih =>
    intro s L h
    cases s with
    | zero =>
      simp only [extendLower]
      rw [if_neg (by intro hcon; exact absurd hcon.1 (by omega))]
      rw [Nat.add_zero]
    | succ s =>
      simp only [extendLower]
      rw [if_pos ⟨by omega, by omega, by trivial, by trivial⟩]
      have hrw : s + 1 - 1 = s := rfl
      rw [hrw]
      rw [ih s (L + 1) (by omega)]
      have : L + 1 + s = L + (s + 1) := by omega
      rw [this]

theorem extendUpper_self_aligned (x : List α) :
    ∀ (fuel M : Nat), x.length - M < fuel → M ≤ x.length →
      extendUpper x x x.length x.length false (fun _ => false) fuel 0 0 M
        = (0, 0, x.length) := by
  intro fuel
  induction fuel with
  | zero => intro M h1 _; omega
  | succ f ih =>
    intro M h1 h2
    by_cases hM : M < x.length
    · simp only [extendUpper]
      rw [if_pos ⟨by omega, by omega, by trivial, by trivial⟩]
      exact ih (M + 1) (by omega) (by omega)
    · have hMe : M = x.length := by omega
      subst hMe
      simp only [extendUpper]
      rw [if_neg (by intro hcon; exact absurd hcon.1 (by omega))]

theorem extendLower_junk_noop (x : List α) (fuel L : Nat) :
    extendLower x x 0 0 true (fun _ => false) fuel 0 0 L = (0, 0, L) := by
  cases fuel with
  | zero => rfl
  | succ f =>
    simp only [extendLower]
    rw [if_neg (by intro hcon; exact absurd hcon.1 (by omega))]

theorem extendUpper_junk_noop (x : List α) (fuel : Nat) :
    extendUpper x x x.length x.length true (fun _ => false) fuel 0 0 x.length
      = (0, 0, x.length) := by
  cases fuel with
  | zero => rfl
  | succ f =>
    simp only [extendUpper]
    rw [if_neg (by intro hcon; exact absurd hcon.1 (by omega))]

theorem flm_self (x : List α) :
    find_longest_match x x (chainB x) (fun _ => false) 0 x.length 0 x.length
      = (0, 0, x.length) := by
  obtain ⟨row, s, B, heq, _, hsB, _⟩ := flmRows_fold_spec x x.length le_rfl
  have hrows : flmRows x (chainB x) 0 x.length 0 x.length = (row, (s, s, B)) := by
    unfold flmRows
    rw [Nat.sub_zero]
    exact heq
  unfold find_longest_match
  rw [hrows]
  dsimp only
  rw [extendLower_self_aligned x (s + 1) s B (by omega)]
  dsimp only
  rw [extendUpper_self_aligned x (x.length + 1) (B + s) (by omega) (by omega)]
  dsimp only
  rw [extendLower_junk_noop x 1 x.length]
  dsimp only
  rw [extendUpper_junk_noop x (x.length + 1)]

theorem gmbLoop_nil (x : List α) (b2j : List (α × List Nat)) (junk : α → Bool) :
    ∀ (fuel : Nat) (acc : List (Nat × Nat × Nat)),
      gmbLoop x x b2j junk fuel [] acc = acc := by
  intro fuel acc
  cases fuel <;> rfl

theorem gmb_self (x : List α) :
    get_matching_blocks x x (chainB x) (fun _ => false)
      = if x.length = 0 then [(0, 0, 0)]
        else [(0, 0, x.length), (x.length, x.length, 0)] := by
  have hflm := flm_self x
  by_cases hn : x.length = 0
  · rw [if_pos hn]
    unfold get_matching_blocks
    have hloop : gmbLoop x x (chainB x) (fun _ => false) (x.length + x.length + 1)
        [(0, x.length, 0, x.length)] [] = [] := by
      simp only [gmbLoop]
      rw [hflm]
      dsimp only
      rw [if_neg (by omega)]
      exact gmbLoop_nil x (chainB x) (fun _ => false) (x.length + x.length) []
    rw [hloop]
    rw [hn]
    rfl
  · rw [if_neg hn]
    unfold get_matching_blocks
    have hloop : gmbLoop x x (chainB x) (fun _ => false) (x.length + x.length + 1)
        [(0, x.length, 0, x.length)] [] = [(0, 0, x.length)] := by
      simp only [gmbLoop]
      rw [hflm]
      dsimp only
      rw [if_pos (by omega)]
      rw [if_neg (by omega), if_neg (by omega)]
      simp only [List.nil_append]
      exact gmbLoop_nil x (chainB x) (fun _ => false) (x.length + x.length) [(0, 0, x.length)]
    rw [hloop]
    have hsort : sortBlocks [(0, 0, x.length)] = [(0, 0, x.length)] := rfl
    rw [hsort]
    have hmerge : mergeGo [(0, 0, x.length)] 0 0 0 [] = [(0, 0, x.length)] := by
      show (if (0 + 0 = 0 ∧ 0 + 0 = 0) then mergeGo [] 0 0 (0 + x.length) []
            else mergeGo [] 0 0 x.length (if (0 : Nat) ≠ 0 then [] ++ [(0, 0, 0)] else [])) = _
      rw [if_pos ⟨rfl, rfl⟩]
      show (if 0 + x.length ≠ 0 then [] ++ [(0, 0, 0 + x.length)] else []) = _
      rw [if_pos (by omega)]
      simp
    rw [hmerge]
    rfl

theorem smMatches_self (x : List α) : smMatches x x = x.length := by
  unfold smMatches
  rw [gmb_self]
  by_cases hn : x.length = 0
  · rw [if_pos hn]
    simp [hn]
  · rw [if_neg hn]
    simp

theorem compute_similarity_self (content : String) :
    compute_similarity content content = 1 := by
  unfold compute_similarity
  rw [smMatches_self]
  show calcRatioQ content.length (content.length + content.length) = 1
  unfold calcRatioQ
  by_cases hn : content.length = 0
  · rw [if_neg (by omega)]
  · rw [if_pos (by omega)]
    push_cast
    have h2 : ((content.length : ℚ) + content.length) = 2 * (content.length : ℚ) := by ring
    rw [h2]
    rw [div_self (by
      have : (content.length : ℚ) ≠ 0 := Nat.cast_ne_zero.mpr hn
      positivity)]

/-- C9: comparing a version's content with itself yields similarity exactly
1.0 — for every content string, including long repetitive ones where autojunk
deletes popular characters from `b2j`, because `find_longest_match`'s best
match is always diagonal for identical inputs and its extension loops then
grow it to the full length — and zero added and removed lines (the counts are
sums over the exhausted diff generator, and the diff of identical content is
empty anyway). -/
theorem C9_compare_identical (content : String) :
    compute_similarity content content = 1 ∧
    (compute_diff content content).added_lines = 0 ∧
    (compute_diff content content).removed_lines = 0 :=
  ⟨compute_similarity_self content, rfl, rfl⟩

end Difflib
